import Mathlib

/-!
# rdns: synthetic PTR / AAAA / NS records for one IPv6 subnet

A shallow embedding of `main.go`.  Go strings are modelled as `List Char`
(query names delivered by the DNS library are printable ASCII, so bytes and
characters coincide), bytes as `Nat`, and a Go panic as `Run.panic`.

The three `regexp` patterns of `main` are built as values of `Re` and matched
by `Re.run`, a list-of-successes matcher that enumerates matches in Go's
leftmost-first (greedy) preference order.
-/

namespace Rdns

/-! ## Outcomes -/

/-- Outcome of running a piece of Go code: it either panics or finishes with a value. -/
inductive Run (α : Type) where
  | panic : Run α
  | done : α → Run α
  deriving DecidableEq, Repr

/-! ## Library functions used by `main.go` -/

/-- The character class `[[:xdigit:]]`: `0-9`, `A-F`, `a-f`. -/
def isXDigit (c : Char) : Bool :=
  ('0' ≤ c && c ≤ '9') || ('A' ≤ c && c ≤ 'F') || ('a' ≤ c && c ≤ 'f')

/-- Lowercase hex digits, the alphabet of `fmt.Sprintf("%x", …)`. -/
def isLowerHex (c : Char) : Bool :=
  ('0' ≤ c && c ≤ '9') || ('a' ≤ c && c ≤ 'f')

/-- Regular expressions, restricted to the constructs that occur in `main`. -/
inductive Re where
  /-- The class `[[:xdigit:]]`. -/
  | xdigit : Re
  /-- A literal character (escaped where the syntax needs it). -/
  | lit : Char → Re
  /-- The empty pattern. -/
  | eps : Re
  /-- Concatenation. -/
  | cat : Re → Re → Re
  /-- Bounded greedy repetition `(?:r){lo,hi}`. -/
  | rep : Re → Nat → Nat → Re
  /-- Capture group number 1, `(r)`. -/
  | group : Re → Re
  deriving DecidableEq, Repr

/-- Matcher state: the text still to be read and the current value of capture group 1. -/
abbrev St := List Char × Option (List Char)

/-- Greedy bounded repetition of a matcher `f`: between `lo` and `hi` rounds,
more rounds preferred. -/
def iter (f : St → List St) : Nat → Nat → St → List St
  | lo, 0, st => if lo = 0 then [st] else []
  | lo, hi + 1, st =>
    (f st).flatMap (iter f (lo - 1) hi) ++ (if lo = 0 then [st] else [])

/-- All ways for `r` to match a leading part of the text, in preference order. -/
def Re.run : Re → St → List St
  | .xdigit, (c :: s, g) => if isXDigit c then [(s, g)] else []
  | .xdigit, ([], _) => []
  | .lit a, (c :: s, g) => if c = a then [(s, g)] else []
  | .lit _, ([], _) => []
  | .eps, st => [st]
  | .cat r₁ r₂, st => (r₁.run st).flatMap r₂.run
  | .rep r lo hi, st => iter r.run lo hi st
  | .group r, (s, g) =>
    (r.run (s, g)).map fun st => (st.1, some (s.take (s.length - st.1.length)))

/-- The pattern matching exactly the text `w`: what `regexp.QuoteMeta(w)` denotes,
and what an escaped literal such as `ip6\.arpa\.` denotes. -/
def QuoteMeta (w : List Char) : Re :=
  w.foldr (fun c r => Re.cat (Re.lit c) r) Re.eps

/-- The repeat counts accepted by the `regexp` parser: `lo ≤ hi ≤ 1000` for every `{lo,hi}`. -/
def Re.valid : Re → Bool
  | .cat r₁ r₂ => r₁.valid && r₂.valid
  | .rep r lo hi => r.valid && decide (lo ≤ hi) && decide (hi ≤ 1000)
  | .group r => r.valid
  | _ => true

/-- A compiled pattern `^expr$`.  Every pattern in `main` starts with `^` and ends
with `$` (no flags), so a match always spans the whole text. -/
structure Regexp where
  expr : Re
  deriving DecidableEq, Repr

/-- `regexp.MustCompile` for `^r$`: panics when the pattern does not parse. -/
def MustCompile (r : Re) : Run Regexp :=
  if r.valid then Run.done ⟨r⟩ else Run.panic

/-- `(*Regexp).FindStringSubmatch`: `none` for Go's `nil`, otherwise `m[0]` (the whole
text, since the pattern is anchored) and `m[1]` (capture group 1). -/
def Regexp.FindStringSubmatch (re : Regexp) (name : List Char) :
    Option (List Char × List Char) :=
  match (re.expr.run (name, none)).find? (fun st => st.1.isEmpty) with
  | some st => some (name, st.2.getD [])
  | none => none

/-- `strings.Split(s, sep)` for a one-character separator. -/
def Split (sep : Char) : List Char → List (List Char)
  | [] => [[]]
  | c :: cs =>
    if c = sep then [] :: Split sep cs
    else
      match Split sep cs with
      | [] => [[c]]
      | w :: ws => (c :: w) :: ws

/-- `strings.Join(d, "")`. -/
def Join (d : List (List Char)) : List Char := d.flatten

/-- `strings.HasPrefix`. -/
def HasPrefix (x p : List Char) : Bool := p.isPrefixOf x

/-- `strings.TrimLeft(x, "0")`. -/
def TrimLeft0 (x : List Char) : List Char := x.dropWhile (· = '0')

/-- `strings.Repeat("0", n)`. -/
def Repeat0 (n : Nat) : List Char := List.replicate n '0'

/-- The table `reverseHexTable` of `encoding/hex`: the value of a hex digit. -/
def fromHexChar (c : Char) : Option Nat :=
  if '0' ≤ c ∧ c ≤ '9' then some (c.toNat - '0'.toNat)
  else if 'a' ≤ c ∧ c ≤ 'f' then some (c.toNat - 'a'.toNat + 10)
  else if 'A' ≤ c ∧ c ≤ 'F' then some (c.toNat - 'A'.toNat + 10)
  else none

/-- `hex.DecodeString`: `none` stands for a non-nil error (bad digit or odd length). -/
def DecodeString : List Char → Option (List Nat)
  | [] => some []
  | [_] => none
  | p :: q :: rest =>
    match fromHexChar p, fromHexChar q with
    | some a, some b =>
      match DecodeString rest with
      | some bs => some ((a * 16 + b) :: bs)
      | none => none
    | _, _ => none

/-- The lowercase hex digit of a nibble. -/
def hexDigit (n : Nat) : Char := "0123456789abcdef".toList.getD n '0'

/-- Lowercase hex of a byte string, two digits per byte (the verb `%x` on `[]byte`). -/
def hexEncode (bs : List Nat) : List Char :=
  bs.flatMap fun b => [hexDigit (b / 16), hexDigit (b % 16)]

/-- Length of a string in bytes (UTF-8), Go's `len`. -/
def byteLen (s : List Char) : Nat := (s.map Char.utf8Size).sum

/-! ## DNS messages (the part of `github.com/miekg/dns` that `main.go` touches) -/

def TypeNS : Nat := 2
def TypePTR : Nat := 12
def TypeAAAA : Nat := 28
def ClassINET : Nat := 1
def RcodeSuccess : Nat := 0
def RcodeNameError : Nat := 3

/-- The struct `dns.RR_Header`. -/
structure RR_Header where
  Name : List Char := []
  Rrtype : Nat := 0
  Class : Nat := 0
  Ttl : Nat := 0
  Rdlength : Nat := 0
  deriving DecidableEq, Repr

/-- Resource records: `dns.NS`, `dns.PTR`, `dns.AAAA`. -/
inductive RR where
  | NS (Hdr : RR_Header) (Ns : List Char)
  | PTR (Hdr : RR_Header) (Ptr : List Char)
  | AAAA (Hdr : RR_Header) (AAAA : List Nat)
  deriving DecidableEq, Repr

/-- The method `Header()`. -/
def RR.Header : RR → RR_Header
  | .NS h _ => h
  | .PTR h _ => h
  | .AAAA h _ => h

/-- Writing through the pointer returned by `Header()`. -/
def RR.setHeader (h : RR_Header) : RR → RR
  | .NS _ x => .NS h x
  | .PTR _ x => .PTR h x
  | .AAAA _ x => .AAAA h x

/-- The struct `dns.Question`. -/
structure Question where
  Name : List Char
  Qtype : Nat
  Qclass : Nat
  deriving DecidableEq, Repr

/-- The struct `dns.Msg`; the default values are Go's zero values, so `{}` is `new(dns.Msg)`. -/
structure Msg where
  Id : Nat := 0
  Response : Bool := false
  Opcode : Nat := 0
  Authoritative : Bool := false
  RecursionDesired : Bool := false
  CheckingDisabled : Bool := false
  Rcode : Nat := 0
  Question : List Question := []
  Answer : List RR := []
  Ns : List RR := []
  Extra : List RR := []
  deriving DecidableEq, Repr

/-- The method `(*dns.Msg).SetReply`. -/
def Msg.SetReply (reply request : Msg) : Msg :=
  let reply := { reply with Id := request.Id, Response := true, Opcode := request.Opcode }
  let reply :=
    if reply.Opcode = 0 then
      { reply with RecursionDesired := request.RecursionDesired,
                   CheckingDisabled := request.CheckingDisabled }
    else reply
  let reply := { reply with Rcode := RcodeSuccess }
  match request.Question with
  | q :: _ => { reply with Question := [q] }
  | [] => reply

/-! ## `main.go` -/

/-- The command-line flags read by the request handlers. -/
structure Flags where
  hostPrefixFlag : List Char
  domainFlag : List Char
  nsFlag : List Char
  ttlFlag : Int
  deriving DecidableEq, Repr

/-- The struct `server`; `pfx` is its field `prefix`. -/
structure server where
  pfx : List Char
  ns : Regexp
  ptr : Regexp
  aaaa : Regexp
  deriving DecidableEq, Repr

/-- The label pattern `(?:[[:xdigit:]]\.)`. -/
def nibbleLabel : Re := Re.cat Re.xdigit (Re.lit '.')

/-- The pattern of `s.ns` between `^` and `$`: `((?:[[:xdigit:]]\.){len(prefix),32})ip6\.arpa\.` -/
def nsExpr (pfx : List Char) : Re :=
  Re.cat (Re.group (Re.rep nibbleLabel pfx.length 32)) (QuoteMeta "ip6.arpa.".toList)

/-- The pattern of `s.ptr` between `^` and `$`: `((?:[[:xdigit:]]\.){32})ip6\.arpa\.` -/
def ptrExpr : Re :=
  Re.cat (Re.group (Re.rep nibbleLabel 32 32)) (QuoteMeta "ip6.arpa.".toList)

/-- The pattern of `s.aaaa` between `^` and `$`:
`QuoteMeta(hostPrefix) ([[:xdigit:]]{1,32-len(prefix)}) QuoteMeta(domain)`.
The prefix has at most 32 digits (an address has 16 bytes), so the bound is not negative. -/
def aaaaExpr (fl : Flags) (pfx : List Char) : Re :=
  Re.cat (QuoteMeta fl.hostPrefixFlag)
    (Re.cat (Re.group (Re.rep Re.xdigit 1 (32 - pfx.length))) (QuoteMeta fl.domainFlag))

/-- The struct literal of `main` (lines 39-48), with the patterns taken as compiled. -/
def serverOf (fl : Flags) (pfx : List Char) : server :=
  { pfx := pfx, ns := ⟨nsExpr pfx⟩, ptr := ⟨ptrExpr⟩, aaaa := ⟨aaaaExpr fl pfx⟩ }

/-- The construction of the server in `main` (lines 39-48): each `MustCompile` may panic. -/
def newServer (fl : Flags) (pfx : List Char) : Run server :=
  match MustCompile (nsExpr pfx), MustCompile ptrExpr, MustCompile (aaaaExpr fl pfx) with
  | .done ns, .done ptr, .done aaaa => .done { pfx := pfx, ns := ns, ptr := ptr, aaaa := aaaa }
  | _, _, _ => .panic

/-- The struct `net.IPNet`, the network returned by `net.ParseCIDR`. -/
structure IPNet where
  IP : List Nat
  Mask : List Nat
  deriving DecidableEq, Repr

/-- `net.CIDRMask(ones, 8*l)`, the mask that `net.ParseCIDR` builds for `/ones` on an
address of `l` bytes (`ones ≤ 8*l`): byte `0xff` while eight ones or more remain, then
`^byte(0xff >> n)`, then zeros. -/
def CIDRMask : Nat → Nat → List Nat
  | _, 0 => []
  | n, l + 1 => if 8 ≤ n then 0xff :: CIDRMask (n - 8) l else (255 - 255 / 2 ^ n) :: CIDRMask 0 l

/-- The inner loop of `simpleMaskLength`, `for v&0x80 != 0 { n++; v <<= 1 }` on a byte `v`:
the number of rounds and the final `v`. -/
def leadingOnes : Nat → Nat → Nat × Nat
  | 0, v => (0, v)
  | fuel + 1, v =>
    if 128 ≤ v then
      let r := leadingOnes fuel (v * 2 % 256)
      (r.1 + 1, r.2)
    else (0, v)

/-- The function `simpleMaskLength` of package `net`; `none` stands for `-1`. -/
def simpleMaskLength : List Nat → Option Nat
  | [] => some 0
  | v :: rest =>
    if v = 0xff then (simpleMaskLength rest).map (· + 8)
    else
      let r := leadingOnes 8 v
      if r.2 ≠ 0 then none
      else if rest.all (· = 0) then some r.1 else none

/-- The method `(IPMask).Size`. -/
def IPMaskSize (m : List Nat) : Nat × Nat :=
  match simpleMaskLength m with
  | none => (0, 0)
  | some ones => (ones, m.length * 8)

/-- Outcome of `main` before it serves: `log.Fatalf`, a panic, or a value. -/
inductive Startup (α : Type) where
  | fatal : String → Startup α
  | panic : Startup α
  | ok : α → Startup α
  deriving DecidableEq, Repr

/-- Lines 33-37 of `main`: the check of the mask and the derivation of `prefix`.
The slice `network.IP[:ones/8]` panics when the address has fewer bytes. -/
def mainPfx (network : IPNet) : Startup (List Char) :=
  let ones := (IPMaskSize network.Mask).1
  if ones % 8 ≠ 0 then .fatal "bad -network flag: mask must be a multiple of 8"
  else if network.IP.length < ones / 8 then .panic
  else .ok (hexEncode (network.IP.take (ones / 8)))

/-- The function `main` up to the call of `ListenAndServe`; `parsed` is the result of
`net.ParseCIDR(*networkFlag)`, `none` for an error. -/
def main (fl : Flags) (parsed : Option IPNet) : Startup server :=
  match parsed with
  | none => .fatal "bad -network flag"
  | some network =>
    match mainPfx network with
    | .fatal msg => .fatal msg
    | .panic => .panic
    | .ok pfx =>
      match newServer fl pfx with
      | .panic => .panic
      | .done s => .ok s

/-- One round of the loop in `hexMatch`: `d[i], d[j] = d[j], d[i]`. -/
def swap (d : List (List Char)) (i j : Nat) : List (List Char) :=
  (d.set i (d.getD j [])).set j (d.getD i [])

/-- The loop `for i := 0; i < n/2; i++ { d[i], d[n-1-i] = d[n-1-i], d[i] }`. -/
def reverseLoop (d : List (List Char)) : List (List Char) :=
  let n := d.length
  (List.range (n / 2)).foldl (fun d i => swap d i (n - 1 - i)) d

/-- The method `hexMatch`.  The slice `m[1][:len(m[1])-1]` panics when `m[1]` is empty,
and the slice `x[len(s.prefix):]` panics when `x` is shorter than the prefix. -/
def server.hexMatch (s : server) (re : Regexp) (name : List Char) : Run (List Char × Bool) :=
  match re.FindStringSubmatch name with
  | none => .done ([], false)
  | some (_, m1) =>
    if m1.length = 0 then .panic
    else
      let d := Split '.' (m1.take (m1.length - 1))
      let d := reverseLoop d
      let x := Join d
      if !HasPrefix x s.pfx then .done ([], false)
      else if x.length < s.pfx.length then .panic
      else .done (x.drop s.pfx.length, true)

/-- The method `toNS`. -/
def server.toNS (fl : Flags) (s : server) (reply : Msg) (name : List Char) : Run Msg :=
  match s.hexMatch s.ns name with
  | .panic => .panic
  | .done (_, false) => .done reply
  | .done (_, true) =>
    .done { reply with
      Ns := [RR.NS { Rrtype := TypeNS, Rdlength := byteLen fl.nsFlag % 2 ^ 16 } fl.nsFlag] }

/-- The method `toPTR`. -/
def server.toPTR (fl : Flags) (s : server) (reply : Msg) (name : List Char) : Run Msg :=
  match s.hexMatch s.ptr name with
  | .panic => .panic
  | .done (_, false) => .done reply
  | .done (x, true) =>
    let x := TrimLeft0 x
    let ptr := fl.hostPrefixFlag ++ x ++ fl.domainFlag
    .done { reply with
      Answer := [RR.PTR { Rrtype := TypePTR, Rdlength := byteLen ptr % 2 ^ 16 } ptr] }

/-- The method `toAAAA`. -/
def server.toAAAA (s : server) (reply : Msg) (name : List Char) : Run Msg :=
  match s.aaaa.FindStringSubmatch name with
  | none => .done reply
  | some (_, m1) =>
    let x := m1
    let pad : Int := 32 - (x.length : Int) - (s.pfx.length : Int)
    let x := if pad > 0 then Repeat0 pad.toNat ++ x else x
    match DecodeString (s.pfx ++ x) with
    | none => .done reply
    | some ip =>
      .done { reply with
        Answer := [RR.AAAA { Rrtype := TypeAAAA, Rdlength := ip.length % 2 ^ 16 } ip] }

/-- The method `ServeDNS`.  The result is what was handed to `w.WriteMsg`:
`none` when the handler returns without writing. -/
def server.ServeDNS (fl : Flags) (s : server) (m : Msg) : Run (Option Msg) :=
  match m.Question with
  | [q] =>
    let reply : Msg := Msg.SetReply {} m
    let switched : Run Msg :=
      if q.Qtype = TypeNS then s.toNS fl reply q.Name
      else if q.Qtype = TypePTR then s.toPTR fl reply q.Name
      else if q.Qtype = TypeAAAA then s.toAAAA reply q.Name
      else .done reply
    match switched with
    | .panic => .panic
    | .done reply =>
      let stamp (h : RR_Header) : RR_Header :=
        { h with Class := ClassINET, Name := q.Name, Ttl := (fl.ttlFlag % 2 ^ 32).toNat }
      match reply.Answer with
      | [rr] =>
        .done (some { reply with Authoritative := true, Answer := [rr.setHeader (stamp rr.Header)] })
      | _ =>
        match reply.Ns with
        | [rr] =>
          .done (some { reply with Authoritative := true, Ns := [rr.setHeader (stamp rr.Header)] })
        | _ => .done (some { reply with Rcode := RcodeNameError })
  | _ => .done none

/-! ## Vocabulary of the specification -/

/-- The text `d₁.d₂.….dₙ.` of a run of one-character labels. -/
def dotted (ds : List Char) : List Char := ds.flatMap fun d => [d, '.']

/-- The zone suffix `ip6.arpa.` -/
def ip6arpa : List Char := "ip6.arpa.".toList

/-- A label that is a single hex digit. -/
def isNibbleLabel : List Char → Bool
  | [c] => isXDigit c
  | _ => false

/-- The character `c'` is `c`, or the same hex digit in the other letter case. -/
def caseVariant (c c' : Char) : Bool :=
  c == c' || (isXDigit c && isXDigit c' && c.toLower == c'.toLower)

/-- The reverse name of the address whose 32 hex digits are `digits`:
the digits in reverse order, one per label, under `ip6.arpa.` -/
def reverseName (digits : List Char) : List Char := dotted digits.reverse ++ ip6arpa

/-- The canonical lowercase reverse name of the address with bytes `a`. -/
def reverseNameOf (a : List Nat) : List Char := reverseName (hexEncode a)

/-- The target of the PTR record that a run of `toPTR` left as the only answer, if any. -/
def ptrTargetOf : Run Msg → Option (List Char)
  | .done { Answer := [RR.PTR _ h], .. } => some h
  | _ => none

/-- The address of the AAAA record that a run of `toAAAA` left as the only answer, if any. -/
def aaaaAddrOf : Run Msg → Option (List Nat)
  | .done { Answer := [RR.AAAA _ ip], .. } => some ip
  | _ => none

/-- The record `rr'` is `rr` with class Internet, the configured TTL and the query name
written into its header, and nothing else changed. -/
def Stamped (fl : Flags) (q : Question) (rr rr' : RR) : Prop :=
  rr'.Header.Class = ClassINET ∧ (rr'.Header.Ttl : Int) = fl.ttlFlag ∧
  rr'.Header.Name = q.Name ∧ rr'.Header.Rrtype = rr.Header.Rrtype ∧
  rr'.Header.Rdlength = rr.Header.Rdlength ∧ rr'.setHeader rr.Header = rr

instance (fl : Flags) (q : Question) (rr rr' : RR) : Decidable (Stamped fl q rr rr') := by
  unfold Stamped; infer_instance

/-- The configuration of the specification's scenario. -/
def exFlags : Flags :=
  { hostPrefixFlag := "ip-".toList, domainFlag := ".v6.example.com.".toList,
    nsFlag := "ns.example.com.".toList, ttlFlag := 3600 }

/-- The subnet digits of `fe80::/64`. -/
def exPfx : List Char := "fe80000000000000".toList

/-- The 32 hex digits of `fe80::1`. -/
def exHost1 : List Char := "fe800000000000000000000000000001".toList

/-! ## The pattern matcher -/

theorem mem_run_xdigit (s : List Char) (g : Option (List Char)) (st : St) :
    st ∈ Re.xdigit.run (s, g) ↔ ∃ c, isXDigit c = true ∧ s = c :: st.1 ∧ st.2 = g := by
  obtain ⟨t, h⟩ := st
  cases s with
  | nil => simp [Re.run]
  | cons c s =>
    by_cases hc : isXDigit c = true
    · simp [Re.run, hc]
      constructor
      · rintro ⟨rfl, rfl⟩; exact ⟨c, hc, ⟨rfl, rfl⟩, rfl⟩
      · rintro ⟨c', _, ⟨rfl, rfl⟩, rfl⟩; exact ⟨rfl, rfl⟩
    · simp [Re.run, hc]
      rintro c' hc' rfl
      exact absurd hc' hc

theorem mem_run_lit (a : Char) (s : List Char) (g : Option (List Char)) (st : St) :
    st ∈ (Re.lit a).run (s, g) ↔ s = a :: st.1 ∧ st.2 = g := by
  obtain ⟨t, h⟩ := st
  cases s with
  | nil => simp [Re.run]
  | cons c s =>
    by_cases hc : c = a
    · subst hc; simp [Re.run]
      intro _; exact eq_comm
    · simp [Re.run, hc]

theorem mem_run_cat (r₁ r₂ : Re) (st st' : St) :
    st' ∈ (Re.cat r₁ r₂).run st ↔ ∃ mid ∈ r₁.run st, st' ∈ r₂.run mid := by
  simp [Re.run, List.mem_flatMap]

theorem mem_run_QuoteMeta (w s : List Char) (g : Option (List Char)) (st : St) :
    st ∈ (QuoteMeta w).run (s, g) ↔ s = w ++ st.1 ∧ st.2 = g := by
  induction w generalizing s g with
  | nil =>
    obtain ⟨t, h⟩ := st
    simp [QuoteMeta, Re.run]
    intro _; exact eq_comm
  | cons a w ih =>
    have hq : QuoteMeta (a :: w) = Re.cat (Re.lit a) (QuoteMeta w) := rfl
    rw [hq, mem_run_cat]
    constructor
    · rintro ⟨⟨t, h⟩, hm, hst⟩
      rw [mem_run_lit] at hm
      rw [ih] at hst
      obtain ⟨rfl, rfl⟩ := hm
      obtain ⟨rfl, hg⟩ := hst
      exact ⟨rfl, hg⟩
    · rintro ⟨rfl, hg⟩
      refine ⟨(w ++ st.1, g), ?_, ?_⟩
      · rw [mem_run_lit]; exact ⟨rfl, rfl⟩
      · rw [ih]; exact ⟨rfl, hg⟩

theorem mem_run_nibbleLabel (s : List Char) (g : Option (List Char)) (st : St) :
    st ∈ nibbleLabel.run (s, g) ↔ ∃ c, isXDigit c = true ∧ s = [c, '.'] ++ st.1 ∧ st.2 = g := by
  unfold nibbleLabel
  rw [mem_run_cat]
  constructor
  · rintro ⟨⟨t, h⟩, hm, hst⟩
    rw [mem_run_xdigit] at hm
    rw [mem_run_lit] at hst
    obtain ⟨c, hc, rfl, rfl⟩ := hm
    obtain ⟨h1, h2⟩ := hst
    subst h1
    exact ⟨c, hc, rfl, h2⟩
  · rintro ⟨c, hc, rfl, hg⟩
    refine ⟨('.' :: st.1, g), ?_, ?_⟩
    · rw [mem_run_xdigit]; exact ⟨c, hc, rfl, rfl⟩
    · rw [mem_run_lit]; exact ⟨rfl, hg⟩

/-- A run of at least `lo` and at most `hi` code words `enc c`, each for a character
satisfying `P`. -/
theorem mem_iter (f : St → List St) (P : Char → Bool) (enc : Char → List Char)
    (hf : ∀ (s : List Char) (g : Option (List Char)) (st : St),
      st ∈ f (s, g) ↔ ∃ c, P c = true ∧ s = enc c ++ st.1 ∧ st.2 = g)
    (lo hi : Nat) (s : List Char) (g : Option (List Char)) (st : St) :
    st ∈ iter f lo hi (s, g) ↔
      ∃ ds : List Char, (∀ d ∈ ds, P d = true) ∧ lo ≤ ds.length ∧ ds.length ≤ hi ∧
        s = ds.flatMap enc ++ st.1 ∧ st.2 = g := by
  induction hi generalizing lo s g with
  | zero =>
    obtain ⟨t, h⟩ := st
    by_cases hlo : lo = 0
    · subst hlo
      simp only [iter, if_true, List.mem_singleton, Prod.mk.injEq]
      constructor
      · rintro ⟨rfl, rfl⟩
        exact ⟨[], by simp, le_refl _, le_refl _, by simp, rfl⟩
      · rintro ⟨ds, _, _, hlen, hs, hg⟩
        have : ds = [] := List.length_eq_zero.mp (Nat.le_zero.mp hlen)
        subst this
        simp at hs hg
        exact ⟨hs.symm, hg⟩
    · simp only [iter, hlo, if_false, List.not_mem_nil, false_iff]
      rintro ⟨ds, _, h1, h2, _⟩
      omega
  | succ hi ih =>
    simp only [iter, List.mem_append, List.mem_flatMap]
    constructor
    · rintro (⟨⟨t, h⟩, hm, hst⟩ | hstop)
      · rw [hf] at hm
        rw [ih] at hst
        obtain ⟨c, hc, rfl, rfl⟩ := hm
        obtain ⟨ds, hds, h1, h2, hs, hg⟩ := hst
        refine ⟨c :: ds, ?_, ?_, ?_, ?_, hg⟩
        · intro d hd
          rcases List.mem_cons.mp hd with rfl | hd
          · exact hc
          · exact hds d hd
        · simp; omega
        · simp; omega
        · simp [hs]
      · by_cases hlo : lo = 0
        · subst hlo
          simp only [if_true, List.mem_singleton] at hstop
          subst hstop
          exact ⟨[], by simp, le_refl _, Nat.zero_le _, by simp, rfl⟩
        · simp [hlo] at hstop
    · rintro ⟨ds, hds, h1, h2, hs, hg⟩
      cases ds with
      | nil =>
        right
        have hlo : lo = 0 := by simpa using h1
        subst hlo
        simp at hs
        simp only [if_true, List.mem_singleton]
        obtain ⟨t, h⟩ := st
        simp only at hs hg
        subst hs; subst hg; rfl
      | cons c ds =>
        left
        refine ⟨(ds.flatMap enc ++ st.1, g), ?_, ?_⟩
        · rw [hf]
          exact ⟨c, hds c (List.mem_cons_self _ _), by simp [hs], rfl⟩
        · rw [ih]
          refine ⟨ds, fun d hd => hds d (List.mem_cons_of_mem _ hd), ?_, ?_, rfl, hg⟩
          · simp at h1; omega
          · simp at h2; omega

theorem mem_run_group (r : Re) (s : List Char) (g : Option (List Char)) (st : St) :
    st ∈ (Re.group r).run (s, g) ↔
      ∃ mid ∈ r.run (s, g), st = (mid.1, some (s.take (s.length - mid.1.length))) := by
  simp only [Re.run, List.mem_map]
  constructor
  · rintro ⟨mid, hm, rfl⟩; exact ⟨mid, hm, rfl⟩
  · rintro ⟨mid, hm, rfl⟩; exact ⟨mid, hm, rfl⟩

theorem find_of_unique (l : List St) (cap : List Char)
    (hex : ∃ st ∈ l, st.1 = []) (huniq : ∀ st ∈ l, st.1 = [] → st.2 = some cap) :
    ∃ st, l.find? (fun st => st.1.isEmpty) = some st ∧ st.2 = some cap := by
  cases hfind : l.find? (fun st => st.1.isEmpty) with
  | none =>
    obtain ⟨st, hst, hnil⟩ := hex
    have := List.find?_eq_none.mp hfind st hst
    simp [hnil] at this
  | some st =>
    refine ⟨st, rfl, huniq st (List.mem_of_find?_eq_some hfind) ?_⟩
    have := List.find?_some hfind
    simpa using this

theorem find_none_of (l : List St) (h : ∀ st ∈ l, st.1 ≠ []) :
    l.find? (fun st => st.1.isEmpty) = none := by
  rw [List.find?_eq_none]
  intro st hst
  simpa using h st hst

theorem dotted_eq_flatMap (ds : List Char) : dotted ds = ds.flatMap (fun d => [d, '.']) := rfl

theorem length_dotted (ds : List Char) : (dotted ds).length = 2 * ds.length := by
  induction ds with
  | nil => rfl
  | cons d ds ih =>
    have : dotted (d :: ds) = d :: '.' :: dotted ds := rfl
    rw [this]; simp [ih]; omega

/-- The full matches of `((?:[[:xdigit:]]\.){lo,hi})ip6\.arpa\.` on `name`. -/
theorem mem_run_reverse (lo hi : Nat) (name : List Char) (st : St) :
    (st ∈ (Re.cat (Re.group (Re.rep nibbleLabel lo hi)) (QuoteMeta ip6arpa)).run (name, none)
        ∧ st.1 = []) ↔
      ∃ ds : List Char, (∀ d ∈ ds, isXDigit d = true) ∧ lo ≤ ds.length ∧ ds.length ≤ hi ∧
        name = dotted ds ++ ip6arpa ∧ st = ([], some (dotted ds)) := by
  rw [mem_run_cat]
  constructor
  · rintro ⟨⟨mid, hmid, hst⟩, hnil⟩
    rw [mem_run_group] at hmid
    obtain ⟨m0, hm0, rfl⟩ := hmid
    have hrep : m0 ∈ iter nibbleLabel.run lo hi (name, none) := by simpa [Re.run] using hm0
    rw [mem_iter nibbleLabel.run isXDigit (fun d => [d, '.']) mem_run_nibbleLabel] at hrep
    obtain ⟨ds, hds, h1, h2, hname, -⟩ := hrep
    rw [mem_run_QuoteMeta] at hst
    obtain ⟨hm, hg⟩ := hst
    rw [hnil, List.append_nil] at hm
    refine ⟨ds, hds, h1, h2, ?_, ?_⟩
    · rw [hname, hm]; rfl
    · obtain ⟨t, g⟩ := st
      simp only at hnil hg
      subst hnil
      rw [hg]
      have hlen : name.length - m0.1.length = (dotted ds).length := by
        rw [hname, dotted_eq_flatMap]; simp
      rw [hlen]
      conv_lhs => rw [hname]
      simp [dotted_eq_flatMap]
  · rintro ⟨ds, hds, h1, h2, hname, rfl⟩
    refine ⟨⟨(ip6arpa, some (dotted ds)), ?_, ?_⟩, rfl⟩
    · rw [mem_run_group]
      refine ⟨(ip6arpa, none), ?_, ?_⟩
      · have : (Re.rep nibbleLabel lo hi).run (name, none) = iter nibbleLabel.run lo hi (name, none) := by
          simp [Re.run]
        rw [this, mem_iter nibbleLabel.run isXDigit (fun d => [d, '.']) mem_run_nibbleLabel]
        exact ⟨ds, hds, h1, h2, hname, rfl⟩
      · simp [hname]
    · rw [mem_run_QuoteMeta]; simp

theorem find_reverse_some (lo hi : Nat) (name ds : List Char)
    (hds : ∀ d ∈ ds, isXDigit d = true) (h1 : lo ≤ ds.length) (h2 : ds.length ≤ hi)
    (hname : name = dotted ds ++ ip6arpa) :
    Regexp.FindStringSubmatch ⟨Re.cat (Re.group (Re.rep nibbleLabel lo hi)) (QuoteMeta ip6arpa)⟩ name
      = some (name, dotted ds) := by
  unfold Regexp.FindStringSubmatch
  obtain ⟨st, hfind, hcap⟩ := find_of_unique
    ((Re.cat (Re.group (Re.rep nibbleLabel lo hi)) (QuoteMeta ip6arpa)).run (name, none)) (dotted ds)
    ⟨([], some (dotted ds)),
      ((mem_run_reverse lo hi name _).mpr ⟨ds, hds, h1, h2, hname, rfl⟩).1, rfl⟩
    (by
      intro st hst hnil
      obtain ⟨ds', -, -, -, hname', rfl⟩ := (mem_run_reverse lo hi name st).mp ⟨hst, hnil⟩
      rw [hname] at hname'
      rw [List.append_cancel_right hname'])
  simp only [hfind, hcap, Option.getD_some]

theorem find_reverse_none (lo hi : Nat) (name : List Char)
    (h : ¬ ∃ ds : List Char, (∀ d ∈ ds, isXDigit d = true) ∧ lo ≤ ds.length ∧ ds.length ≤ hi ∧
        name = dotted ds ++ ip6arpa) :
    Regexp.FindStringSubmatch ⟨Re.cat (Re.group (Re.rep nibbleLabel lo hi)) (QuoteMeta ip6arpa)⟩ name
      = none := by
  unfold Regexp.FindStringSubmatch
  rw [find_none_of]
  intro st hst hnil
  obtain ⟨ds, hds, h1, h2, hname, -⟩ := (mem_run_reverse lo hi name st).mp ⟨hst, hnil⟩
  exact h ⟨ds, hds, h1, h2, hname⟩

/-! ## `hexMatch` -/

theorem length_swap (d : List (List Char)) (i j : Nat) : (swap d i j).length = d.length := by
  simp [swap]

theorem getElem?_swap (d : List (List Char)) (i j k : Nat) (hi : i < d.length) (hj : j < d.length) :
    (swap d i j)[k]? = if k = j then d[i]? else if k = i then d[j]? else d[k]? := by
  unfold swap
  rw [List.getElem?_set, List.getElem?_set, List.length_set,
    List.getD_eq_getElem?_getD, List.getD_eq_getElem?_getD]
  have e1 : d[i]? = some d[i] := List.getElem?_eq_getElem hi
  have e2 : d[j]? = some d[j] := List.getElem?_eq_getElem hj
  by_cases h1 : k = j
  · subst h1; simp [hj, e1]
  · by_cases h2 : k = i
    · subst h2; simp [hi, e2, h1, Ne.symm h1]
    · simp [h1, h2, Ne.symm h1, Ne.symm h2]

/-- State of the list after the first `k` rounds of the loop. -/
theorem reverseLoop_rounds (d : List (List Char)) (k : Nat) (hk : k ≤ d.length / 2) :
    ((List.range k).foldl (fun e i => swap e i (d.length - 1 - i)) d).length = d.length ∧
    ∀ j, ((List.range k).foldl (fun e i => swap e i (d.length - 1 - i)) d)[j]? =
      if j < k ∨ (d.length - k ≤ j ∧ j < d.length) then d[d.length - 1 - j]? else d[j]? := by
  induction k with
  | zero =>
    refine ⟨rfl, fun j => ?_⟩
    have : ¬ (j < 0 ∨ (d.length - 0 ≤ j ∧ j < d.length)) := by omega
    simp only [List.range_zero, List.foldl_nil, this, if_false]
  | succ k ih =>
    obtain ⟨hlen, hget⟩ := ih (by omega)
    rw [List.range_succ, List.foldl_append]
    simp only [List.foldl_cons, List.foldl_nil]
    refine ⟨by rw [length_swap, hlen], fun j => ?_⟩
    rw [getElem?_swap _ _ _ _ (by omega) (by omega), hget, hget, hget]
    by_cases h1 : j = d.length - 1 - k
    · have c1 : ¬ (k < k ∨ (d.length - k ≤ k ∧ k < d.length)) := by omega
      have c2 : j < k + 1 ∨ (d.length - (k + 1) ≤ j ∧ j < d.length) := by omega
      have e : d.length - 1 - j = k := by omega
      simp only [h1, if_true, c1, if_false]
      rw [← h1, if_pos c2, e]
    · by_cases h2 : j = k
      · subst h2
        have c1 : ¬ (d.length - 1 - j < j ∨
            (d.length - j ≤ d.length - 1 - j ∧ d.length - 1 - j < d.length)) := by omega
        have c2 : j < j + 1 ∨ (d.length - (j + 1) ≤ j ∧ j < d.length) := by omega
        rw [if_neg h1, if_pos rfl, if_neg c1, if_pos c2]
      · simp only [h1, h2, if_false]
        by_cases c : j < k ∨ (d.length - k ≤ j ∧ j < d.length)
        · have c2 : j < k + 1 ∨ (d.length - (k + 1) ≤ j ∧ j < d.length) := by omega
          rw [if_pos c, if_pos c2]
        · have c2 : ¬ (j < k + 1 ∨ (d.length - (k + 1) ≤ j ∧ j < d.length)) := by omega
          rw [if_neg c, if_neg c2]

/-- The swap loop of `hexMatch` reverses the list. -/
theorem reverseLoop_eq_reverse (d : List (List Char)) : reverseLoop d = d.reverse := by
  obtain ⟨hlen, hget⟩ := reverseLoop_rounds d (d.length / 2) (le_refl _)
  apply List.ext_getElem?
  intro j
  show ((List.range (d.length / 2)).foldl (fun e i => swap e i (d.length - 1 - i)) d)[j]? = _
  rw [hget]
  by_cases hj : j < d.length
  · rw [List.getElem?_reverse hj]
    by_cases c : j < d.length / 2 ∨ (d.length - d.length / 2 ≤ j ∧ j < d.length)
    · rw [if_pos c]
    · rw [if_neg c]
      have : d.length - 1 - j = j := by omega
      rw [this]
  · have c : ¬ (j < d.length / 2 ∨ (d.length - d.length / 2 ≤ j ∧ j < d.length)) := by omega
    rw [if_neg c, List.getElem?_eq_none (by omega), List.getElem?_eq_none (by simp; omega)]

theorem ne_dot_of_isXDigit {c : Char} (h : isXDigit c = true) : c ≠ '.' := by
  rintro rfl
  exact absurd h (by decide)

theorem Split_dotted (ds : List Char) (hne : ds ≠ []) (hds : ∀ d ∈ ds, d ≠ '.') :
    Split '.' ((dotted ds).take ((dotted ds).length - 1)) = ds.map (fun d => [d]) := by
  rw [← List.dropLast_eq_take]
  induction ds with
  | nil => exact absurd rfl hne
  | cons d ds ih =>
    have hd : d ≠ '.' := hds d (List.mem_cons_self _ _)
    cases ds with
    | nil =>
      show Split '.' [d] = [[d]]
      simp [Split, hd]
    | cons e es =>
      have ih' := ih (by simp) (fun x hx => hds x (List.mem_cons_of_mem _ hx))
      have hdot : dotted (d :: e :: es) = d :: '.' :: dotted (e :: es) := rfl
      have hne' : dotted (e :: es) ≠ [] := by
        show e :: '.' :: dotted es ≠ []
        simp
      have step : ∀ rest, Split '.' (d :: '.' :: rest) = [d] :: Split '.' rest := by
        intro rest; simp [Split, hd]
      rw [hdot, List.dropLast_cons_of_ne_nil (by simp), List.dropLast_cons_of_ne_nil hne',
        step, ih']
      rfl

theorem Join_singletons_reverse (ds : List Char) :
    Join (ds.map (fun d => [d])).reverse = ds.reverse := by
  unfold Join
  rw [← List.map_reverse]
  generalize ds.reverse = l
  induction l with
  | nil => rfl
  | cons a l ih => simp [ih]

theorem dotted_ne_nil {ds : List Char} (hne : ds ≠ []) : (dotted ds).length ≠ 0 := by
  rw [length_dotted]
  have : ds.length ≠ 0 := fun h => hne (List.length_eq_zero.mp h)
  omega

/-- On a name that the pattern matches with a non-empty label run, `hexMatch`
compares the reversed digits with the subnet digits. -/
theorem hexMatch_reverse (s : server) (lo hi : Nat) (name ds : List Char)
    (hds : ∀ d ∈ ds, isXDigit d = true) (h1 : lo ≤ ds.length) (h2 : ds.length ≤ hi)
    (hname : name = dotted ds ++ ip6arpa) (hne : ds ≠ []) :
    s.hexMatch ⟨Re.cat (Re.group (Re.rep nibbleLabel lo hi)) (QuoteMeta ip6arpa)⟩ name =
      if s.pfx.isPrefixOf ds.reverse then Run.done (ds.reverse.drop s.pfx.length, true)
      else Run.done ([], false) := by
  unfold server.hexMatch
  rw [find_reverse_some lo hi name ds hds h1 h2 hname]
  simp only [if_neg (dotted_ne_nil hne)]
  rw [Split_dotted ds hne (fun d hd => ne_dot_of_isXDigit (hds d hd)), reverseLoop_eq_reverse,
    Join_singletons_reverse]
  unfold HasPrefix
  by_cases hp : s.pfx.isPrefixOf ds.reverse = true
  · have hle : ¬ ds.reverse.length < s.pfx.length :=
      Nat.not_lt.mpr (List.isPrefixOf_iff_prefix.mp hp).length_le
    simp only [hp, Bool.not_true, Bool.false_eq_true, if_false, if_true, hle]
  · simp [hp]

/-- On a name that the pattern matches with an empty label run, `hexMatch` panics. -/
theorem hexMatch_reverse_empty (s : server) (hi : Nat) :
    s.hexMatch ⟨Re.cat (Re.group (Re.rep nibbleLabel 0 hi)) (QuoteMeta ip6arpa)⟩ ip6arpa =
      Run.panic := by
  unfold server.hexMatch
  rw [find_reverse_some 0 hi ip6arpa [] (by simp) (le_refl _) (Nat.zero_le _) rfl]
  rfl

theorem hexMatch_reverse_none (s : server) (lo hi : Nat) (name : List Char)
    (h : ¬ ∃ ds : List Char, (∀ d ∈ ds, isXDigit d = true) ∧ lo ≤ ds.length ∧ ds.length ≤ hi ∧
        name = dotted ds ++ ip6arpa) :
    s.hexMatch ⟨Re.cat (Re.group (Re.rep nibbleLabel lo hi)) (QuoteMeta ip6arpa)⟩ name =
      Run.done ([], false) := by
  unfold server.hexMatch
  rw [find_reverse_none lo hi name h]

/-- What `strings.TrimLeft(x, "0")` returns: `x` without its leading run of zeros. -/
theorem TrimLeft0_spec (x : List Char) :
    ∃ k, x = List.replicate k '0' ++ TrimLeft0 x ∧ (TrimLeft0 x).head? ≠ some '0' := by
  induction x with
  | nil => exact ⟨0, rfl, by simp [TrimLeft0]⟩
  | cons c x ih =>
    by_cases hc : c = '0'
    · obtain ⟨k, hk, hhead⟩ := ih
      subst hc
      refine ⟨k + 1, ?_, ?_⟩
      · have : TrimLeft0 ('0' :: x) = TrimLeft0 x := by simp [TrimLeft0, List.dropWhile]
        rw [this, List.replicate_succ, List.cons_append, ← hk]
      · have : TrimLeft0 ('0' :: x) = TrimLeft0 x := by simp [TrimLeft0, List.dropWhile]
        rw [this]; exact hhead
    · have : TrimLeft0 (c :: x) = c :: x := by simp [TrimLeft0, List.dropWhile, hc]
      refine ⟨0, by rw [this]; rfl, ?_⟩
      rw [this]; simpa using hc

/-- The trimmed form is determined by the two properties of `TrimLeft0_spec`. -/
theorem TrimLeft0_unique (k : Nat) (t : List Char) (ht : t.head? ≠ some '0') :
    TrimLeft0 (List.replicate k '0' ++ t) = t := by
  induction k with
  | zero =>
    cases t with
    | nil => rfl
    | cons c t =>
      have hc : c ≠ '0' := by simpa using ht
      simp [TrimLeft0, List.dropWhile, hc]
  | succ k ih =>
    rw [List.replicate_succ, List.cons_append]
    have : TrimLeft0 ('0' :: (List.replicate k '0' ++ t)) = TrimLeft0 (List.replicate k '0' ++ t) := by
      simp [TrimLeft0, List.dropWhile]
    rw [this, ih]

theorem toPTR_of_reverse (fl : Flags) (pfx : List Char) (reply : Msg) (name ds : List Char)
    (hlen : ds.length = 32) (hds : ∀ d ∈ ds, isXDigit d = true)
    (hname : name = dotted ds ++ ip6arpa) (hpre : pfx <+: ds.reverse) :
    (serverOf fl pfx).toPTR fl reply name =
      Run.done { reply with Answer :=
        [RR.PTR { Rrtype := TypePTR,
                  Rdlength := byteLen (fl.hostPrefixFlag ++ TrimLeft0 (ds.reverse.drop pfx.length)
                    ++ fl.domainFlag) % 2 ^ 16 }
          (fl.hostPrefixFlag ++ TrimLeft0 (ds.reverse.drop pfx.length) ++ fl.domainFlag)] } := by
  have hne : ds ≠ [] := by intro h; rw [h] at hlen; simp at hlen
  have hm := hexMatch_reverse (serverOf fl pfx) 32 32 name ds hds (by omega) (by omega) hname hne
  have hp : (serverOf fl pfx).pfx.isPrefixOf ds.reverse = true :=
    List.isPrefixOf_iff_prefix.mpr hpre
  rw [if_pos hp] at hm
  unfold server.toPTR
  have hptr : (serverOf fl pfx).ptr =
      ⟨Re.cat (Re.group (Re.rep nibbleLabel 32 32)) (QuoteMeta ip6arpa)⟩ := rfl
  rw [hptr, hm]
  rfl

theorem toPTR_of_not_reverse (fl : Flags) (pfx : List Char) (reply : Msg) (name : List Char)
    (h : ¬ ∃ ds : List Char, ds.length = 32 ∧ (∀ d ∈ ds, isXDigit d = true) ∧
      name = dotted ds ++ ip6arpa ∧ pfx <+: ds.reverse) :
    (serverOf fl pfx).toPTR fl reply name = Run.done reply := by
  unfold server.toPTR
  have hptr : (serverOf fl pfx).ptr =
      ⟨Re.cat (Re.group (Re.rep nibbleLabel 32 32)) (QuoteMeta ip6arpa)⟩ := rfl
  rw [hptr]
  by_cases hm : ∃ ds : List Char, (∀ d ∈ ds, isXDigit d = true) ∧ 32 ≤ ds.length ∧
      ds.length ≤ 32 ∧ name = dotted ds ++ ip6arpa
  · obtain ⟨ds, hds, h1, h2, hname⟩ := hm
    have hne : ds ≠ [] := by intro h; rw [h] at h1; simp at h1
    rw [hexMatch_reverse (serverOf fl pfx) 32 32 name ds hds h1 h2 hname hne]
    have hp : ¬ (serverOf fl pfx).pfx.isPrefixOf ds.reverse = true := by
      intro hp
      exact h ⟨ds, by omega, hds, hname, List.isPrefixOf_iff_prefix.mp hp⟩
    rw [if_neg hp]
  · rw [hexMatch_reverse_none (serverOf fl pfx) 32 32 name hm]

/-! ## Construction of the server -/

theorem valid_QuoteMeta (w : List Char) : (QuoteMeta w).valid = true := by
  induction w with
  | nil => rfl
  | cons c w ih =>
    have : QuoteMeta (c :: w) = Re.cat (Re.lit c) (QuoteMeta w) := rfl
    rw [this]
    simp [Re.valid, ih]

/-- For a prefix shorter than 32 digits all three patterns compile, and `main` builds
`serverOf fl pfx`. -/
theorem newServer_of_lt (fl : Flags) (pfx : List Char) (h : pfx.length < 32) :
    newServer fl pfx = Run.done (serverOf fl pfx) := by
  have h1 : (nsExpr pfx).valid = true := by
    simp [nsExpr, Re.valid, nibbleLabel, valid_QuoteMeta]; omega
  have h2 : ptrExpr.valid = true := by
    simp [ptrExpr, Re.valid, nibbleLabel, valid_QuoteMeta]
  have h3 : (aaaaExpr fl pfx).valid = true := by
    simp [aaaaExpr, Re.valid, valid_QuoteMeta]; omega
  simp [newServer, MustCompile, h1, h2, h3, serverOf]

/-- For a prefix of 32 digits (a `/128` network) the pattern `{1,0}` of `aaaa` does not
compile, and `main` panics before serving. -/
theorem newServer_of_ge (fl : Flags) (pfx : List Char) (h : 32 ≤ pfx.length) :
    newServer fl pfx = Run.panic := by
  have h3 : (aaaaExpr fl pfx).valid = false := by
    have : ¬ (1 ≤ 32 - pfx.length) := by omega
    simp [aaaaExpr, Re.valid, valid_QuoteMeta, this]
  unfold newServer
  rw [show MustCompile (aaaaExpr fl pfx) = Run.panic by simp [MustCompile, h3]]
  split
  · rename_i heq; cases heq
  · rfl

/-! ## `toPTR` and `toNS` -/

theorem toNS_of_reverse (fl : Flags) (pfx : List Char) (reply : Msg) (name ds : List Char)
    (hne : ds ≠ []) (hlen : ds.length ≤ 32) (hds : ∀ d ∈ ds, isXDigit d = true)
    (hname : name = dotted ds ++ ip6arpa) (hpre : pfx <+: ds.reverse) :
    (serverOf fl pfx).toNS fl reply name =
      Run.done { reply with Ns :=
        [RR.NS { Rrtype := TypeNS, Rdlength := byteLen fl.nsFlag % 2 ^ 16 } fl.nsFlag] } := by
  have hlo : pfx.length ≤ ds.length := by
    have := hpre.length_le
    simpa using this
  have hm := hexMatch_reverse (serverOf fl pfx) pfx.length 32 name ds hds hlo hlen hname hne
  have hp : (serverOf fl pfx).pfx.isPrefixOf ds.reverse = true :=
    List.isPrefixOf_iff_prefix.mpr hpre
  rw [if_pos hp] at hm
  unfold server.toNS
  have hns : (serverOf fl pfx).ns =
      ⟨Re.cat (Re.group (Re.rep nibbleLabel pfx.length 32)) (QuoteMeta ip6arpa)⟩ := rfl
  rw [hns, hm]

theorem toNS_of_not_reverse (fl : Flags) (pfx : List Char) (reply : Msg) (name : List Char)
    (h : ¬ ∃ ds : List Char, ds.length ≤ 32 ∧ (∀ d ∈ ds, isXDigit d = true) ∧
      name = dotted ds ++ ip6arpa ∧ pfx <+: ds.reverse) :
    (serverOf fl pfx).toNS fl reply name = Run.done reply := by
  unfold server.toNS
  have hns : (serverOf fl pfx).ns =
      ⟨Re.cat (Re.group (Re.rep nibbleLabel pfx.length 32)) (QuoteMeta ip6arpa)⟩ := rfl
  rw [hns]
  by_cases hm : ∃ ds : List Char, (∀ d ∈ ds, isXDigit d = true) ∧ pfx.length ≤ ds.length ∧
      ds.length ≤ 32 ∧ name = dotted ds ++ ip6arpa
  · obtain ⟨ds, hds, h1, h2, hname⟩ := hm
    have hne : ds ≠ [] := by
      rintro rfl
      have hp : pfx = [] := List.length_eq_zero.mp (Nat.le_zero.mp h1)
      exact h ⟨[], by simp, hds, hname, by simp [hp]⟩
    rw [hexMatch_reverse (serverOf fl pfx) pfx.length 32 name ds hds h1 h2 hname hne]
    have hp : ¬ (serverOf fl pfx).pfx.isPrefixOf ds.reverse = true := by
      intro hp
      exact h ⟨ds, h2, hds, hname, List.isPrefixOf_iff_prefix.mp hp⟩
    rw [if_neg hp]
  · rw [hexMatch_reverse_none (serverOf fl pfx) pfx.length 32 name hm]

/-- With an empty subnet prefix (`-network ::/0`), the name `ip6.arpa.` makes `toNS` panic. -/
theorem toNS_zone_apex_panics (fl : Flags) (reply : Msg) :
    (serverOf fl []).toNS fl reply ip6arpa = Run.panic := by
  unfold server.toNS
  have hns : (serverOf fl []).ns =
      ⟨Re.cat (Re.group (Re.rep nibbleLabel 0 32)) (QuoteMeta ip6arpa)⟩ := rfl
  rw [hns, hexMatch_reverse_empty]

/-- C1. For a subnet prefix of even length `p ≤ 32` in lowercase hex and any query name:
if the name is 32 one-hex-digit labels followed by `ip6.arpa.` and the labels read in
reverse order start with the prefix, `toPTR` sets exactly one PTR answer, with target
`hostPrefix ++ t ++ domainSuffix`, `t` being the digits after the prefix without their
leading zeros; for every other name `toPTR` leaves the reply as it was. -/
theorem toPTR_answer_iff (fl : Flags) (pfx : List Char)
    (_hhex : ∀ c ∈ pfx, isLowerHex c = true) (heven : pfx.length % 2 = 0)
    (hlen : pfx.length ≤ 32) (reply : Msg) (name : List Char) :
    (∀ ds : List Char, ds.length = 32 → (∀ d ∈ ds, isXDigit d = true) →
        name = dotted ds ++ ip6arpa → pfx <+: ds.reverse →
        ∃ (k : Nat) (t : List Char) (hdr : RR_Header),
          ds.reverse = pfx ++ (List.replicate k '0' ++ t) ∧ t.head? ≠ some '0' ∧
          t.length + k = 32 - pfx.length ∧ hdr.Rrtype = TypePTR ∧
          (serverOf fl pfx).toPTR fl reply name =
            Run.done { reply with
              Answer := [RR.PTR hdr (fl.hostPrefixFlag ++ t ++ fl.domainFlag)] }) ∧
    ((¬ ∃ ds : List Char, ds.length = 32 ∧ (∀ d ∈ ds, isXDigit d = true) ∧
        name = dotted ds ++ ip6arpa ∧ pfx <+: ds.reverse) →
        (serverOf fl pfx).toPTR fl reply name = Run.done reply) := by
  refine ⟨fun ds hds32 hds hname hpre => ?_, toPTR_of_not_reverse fl pfx reply name⟩
  obtain ⟨k, hk, hhead⟩ := TrimLeft0_spec (ds.reverse.drop pfx.length)
  refine ⟨k, TrimLeft0 (ds.reverse.drop pfx.length), _, ?_, hhead, ?_, ?_,
    toPTR_of_reverse fl pfx reply name ds hds32 hds hname hpre⟩
  · rw [← hk]
    obtain ⟨rest, hrest⟩ := hpre
    rw [← hrest, List.drop_left]
  · have hl := congrArg List.length hk
    simp only [List.length_drop, List.length_reverse, List.length_append,
      List.length_replicate] at hl
    omega
  · rfl

theorem toPTR_answer_iff_witness :
    ∃ (k : Nat) (t : List Char) (hdr : RR_Header),
      exHost1.reverse.reverse = exPfx ++ (List.replicate k '0' ++ t) ∧ t.head? ≠ some '0' ∧
      t.length + k = 32 - exPfx.length ∧ hdr.Rrtype = TypePTR ∧
      (serverOf exFlags exPfx).toPTR exFlags {} (reverseName exHost1) =
        Run.done { ({} : Msg) with
          Answer := [RR.PTR hdr (exFlags.hostPrefixFlag ++ t ++ exFlags.domainFlag)] } :=
  (toPTR_answer_iff exFlags exPfx (by decide) (by decide) (by decide) {}
    (reverseName exHost1)).1 exHost1.reverse (by decide) (by decide) (by decide) (by decide)

/-- C3 at the failing input: with the empty prefix of `-network ::/0`, the name `ip6.arpa.`
is a run of zero labels whose digits start with the prefix, and `toNS` panics on it
instead of answering. -/
theorem toNS_empty_run_panics :
    (∃ ds : List Char, ds.length ≤ 32 ∧ (∀ d ∈ ds, isXDigit d = true) ∧
      ip6arpa = dotted ds ++ ip6arpa ∧ ([] : List Char) <+: ds.reverse) ∧
    (serverOf exFlags []).toNS exFlags {} ip6arpa = Run.panic :=
  ⟨⟨[], by decide, by decide, by decide, by decide⟩, toNS_zone_apex_panics exFlags {}⟩

/-! ## `toAAAA` -/

/-- The full matches of `QuoteMeta(hp) ([[:xdigit:]]{1,k}) QuoteMeta(dom)` on `name`. -/
theorem mem_run_forward (hp dom : List Char) (k : Nat) (name : List Char) (st : St) :
    (st ∈ (Re.cat (QuoteMeta hp)
          (Re.cat (Re.group (Re.rep Re.xdigit 1 k)) (QuoteMeta dom))).run (name, none)
        ∧ st.1 = []) ↔
      ∃ ds : List Char, (∀ d ∈ ds, isXDigit d = true) ∧ 1 ≤ ds.length ∧ ds.length ≤ k ∧
        name = hp ++ ds ++ dom ∧ st = ([], some ds) := by
  have hx : ∀ (s : List Char) (g : Option (List Char)) (st : St),
      st ∈ Re.xdigit.run (s, g) ↔ ∃ c, isXDigit c = true ∧ s = [c] ++ st.1 ∧ st.2 = g := by
    intro s g st; rw [mem_run_xdigit]; rfl
  have hflat : ∀ ds : List Char, ds.flatMap (fun d => [d]) = ds := by
    intro ds; induction ds with
    | nil => rfl
    | cons d ds ih => simp [List.flatMap_cons, ih]
  rw [mem_run_cat]
  constructor
  · rintro ⟨⟨⟨t0, g0⟩, h0, hst⟩, hnil⟩
    rw [mem_run_QuoteMeta] at h0
    obtain ⟨hname0, hg0⟩ := h0
    change name = hp ++ t0 at hname0
    change g0 = none at hg0
    subst hg0
    rw [mem_run_cat] at hst
    obtain ⟨mid, hmid, hst⟩ := hst
    rw [mem_run_group] at hmid
    obtain ⟨m0, hm0, rfl⟩ := hmid
    have hrep : m0 ∈ iter Re.xdigit.run 1 k (t0, none) := by simpa [Re.run] using hm0
    rw [mem_iter Re.xdigit.run isXDigit (fun d => [d]) hx, ] at hrep
    obtain ⟨ds, hds, h1, h2, ht0, -⟩ := hrep
    rw [hflat] at ht0
    rw [mem_run_QuoteMeta] at hst
    obtain ⟨hm, hg⟩ := hst
    rw [hnil, List.append_nil] at hm
    refine ⟨ds, hds, h1, h2, ?_, ?_⟩
    · rw [hname0, ht0, hm, List.append_assoc]
    · obtain ⟨t, g⟩ := st
      simp only at hnil hg
      subst hnil
      rw [hg]
      have hlen : t0.length - m0.1.length = ds.length := by
        rw [ht0]; simp
      rw [hlen]
      conv_lhs => rw [ht0]
      simp
  · rintro ⟨ds, hds, h1, h2, hname, rfl⟩
    refine ⟨⟨(ds ++ dom, none), ?_, ?_⟩, rfl⟩
    · rw [mem_run_QuoteMeta]
      exact ⟨by rw [hname, List.append_assoc], rfl⟩
    · rw [mem_run_cat]
      refine ⟨(dom, some ds), ?_, ?_⟩
      · rw [mem_run_group]
        refine ⟨(dom, none), ?_, ?_⟩
        · have : (Re.rep Re.xdigit 1 k).run (ds ++ dom, none)
              = iter Re.xdigit.run 1 k (ds ++ dom, none) := by simp [Re.run]
          rw [this, mem_iter Re.xdigit.run isXDigit (fun d => [d]) hx]
          exact ⟨ds, hds, h1, h2, by rw [hflat], rfl⟩
        · simp
      · rw [mem_run_QuoteMeta]; simp

theorem find_forward_some (fl : Flags) (pfx name ds : List Char)
    (hds : ∀ d ∈ ds, isXDigit d = true) (h1 : 1 ≤ ds.length) (h2 : ds.length ≤ 32 - pfx.length)
    (hname : name = fl.hostPrefixFlag ++ ds ++ fl.domainFlag) :
    (serverOf fl pfx).aaaa.FindStringSubmatch name = some (name, ds) := by
  unfold Regexp.FindStringSubmatch
  obtain ⟨st, hfind, hcap⟩ := find_of_unique ((serverOf fl pfx).aaaa.expr.run (name, none)) ds
    ⟨([], some ds), ((mem_run_forward fl.hostPrefixFlag fl.domainFlag (32 - pfx.length)
        name _).mpr ⟨ds, hds, h1, h2, hname, rfl⟩).1, rfl⟩
    (by
      intro st hst hnil
      obtain ⟨ds', -, -, -, hname', rfl⟩ :=
        (mem_run_forward fl.hostPrefixFlag fl.domainFlag (32 - pfx.length) name st).mp ⟨hst, hnil⟩
      rw [hname, List.append_assoc, List.append_assoc] at hname'
      rw [List.append_cancel_right (List.append_cancel_left hname')])
  simp only [hfind, hcap, Option.getD_some]

theorem find_forward_none (fl : Flags) (pfx name : List Char)
    (h : ¬ ∃ ds : List Char, (∀ d ∈ ds, isXDigit d = true) ∧ 1 ≤ ds.length ∧
      ds.length ≤ 32 - pfx.length ∧ name = fl.hostPrefixFlag ++ ds ++ fl.domainFlag) :
    (serverOf fl pfx).aaaa.FindStringSubmatch name = none := by
  unfold Regexp.FindStringSubmatch
  rw [find_none_of]
  intro st hst hnil
  obtain ⟨ds, hds, h1, h2, hname, -⟩ :=
    (mem_run_forward fl.hostPrefixFlag fl.domainFlag (32 - pfx.length) name st).mp ⟨hst, hnil⟩
  exact h ⟨ds, hds, h1, h2, hname⟩

theorem fromHexChar_of_isXDigit {c : Char} (h : isXDigit c = true) :
    ∃ n, fromHexChar c = some n ∧ n < 16 := by
  have hle : ∀ a b : Char, a ≤ b ↔ a.toNat ≤ b.toNat := fun a b => Iff.rfl
  simp only [isXDigit, Bool.or_eq_true, Bool.and_eq_true, decide_eq_true_eq] at h
  unfold fromHexChar
  simp only [hle] at h ⊢
  have e0 : '0'.toNat = 48 := rfl
  have e9 : '9'.toNat = 57 := rfl
  have eA : 'A'.toNat = 65 := rfl
  have eF : 'F'.toNat = 70 := rfl
  have ea : 'a'.toNat = 97 := rfl
  have ef : 'f'.toNat = 102 := rfl
  rw [e0, e9, eA, eF, ea, ef] at h
  rw [e0, e9, eA, eF, ea, ef]
  split_ifs with c1 c2 c3
  · exact ⟨_, rfl, by omega⟩
  · exact ⟨_, rfl, by omega⟩
  · exact ⟨_, rfl, by omega⟩
  · omega

theorem isXDigit_of_fromHexChar {c : Char} {n : Nat} (h : fromHexChar c = some n) :
    isXDigit c = true := by
  unfold fromHexChar at h
  simp only [isXDigit, Bool.or_eq_true, Bool.and_eq_true, decide_eq_true_eq]
  split_ifs at h with c1 c2 c3
  · exact Or.inl (Or.inl c1)
  · exact Or.inr c2
  · exact Or.inl (Or.inr c3)

/-- Decoding succeeds on an even number of hex digits and yields half as many bytes. -/
theorem DecodeString_of_isXDigit (n : Nat) (x : List Char) (hn : x.length = 2 * n)
    (hx : ∀ c ∈ x, isXDigit c = true) :
    ∃ bs, DecodeString x = some bs ∧ bs.length = n ∧ ∀ b ∈ bs, b < 256 := by
  induction n generalizing x with
  | zero =>
    have : x = [] := List.length_eq_zero.mp (by omega)
    subst this
    exact ⟨[], rfl, rfl, by simp⟩
  | succ n ih =>
    match x, hn, hx with
    | p :: q :: rest, hn, hx =>
      obtain ⟨a, ha, ha16⟩ := fromHexChar_of_isXDigit (hx p (by simp))
      obtain ⟨b, hb, hb16⟩ := fromHexChar_of_isXDigit (hx q (by simp))
      obtain ⟨bs, hbs, hlen, hlt⟩ := ih rest (by simp at hn; omega)
        (fun c hc => hx c (by simp [hc]))
      refine ⟨(a * 16 + b) :: bs, by simp [DecodeString, ha, hb, hbs], by simp [hlen], ?_⟩
      intro y hy
      rcases List.mem_cons.mp hy with rfl | hy
      · omega
      · exact hlt y hy
    | [_], hn, _ => simp at hn; omega
    | [], hn, _ => simp at hn

/-- Decoding what follows an even number of digits does not depend on those digits. -/
theorem DecodeString_append (n : Nat) (x y : List Char) (hn : x.length = 2 * n) :
    DecodeString (x ++ y) =
      match DecodeString x, DecodeString y with
      | some a, some b => some (a ++ b)
      | _, _ => none := by
  induction n generalizing x with
  | zero =>
    have : x = [] := List.length_eq_zero.mp (by omega)
    subst this
    cases h : DecodeString y <;> simp [DecodeString, h]
  | succ n ih =>
    match x, hn with
    | p :: q :: rest, hn =>
      have ih' := ih rest (by simp at hn; omega)
      have hstep : ∀ z, DecodeString (p :: q :: z) =
          match fromHexChar p, fromHexChar q with
          | some a, some b =>
            match DecodeString z with
            | some bs => some ((a * 16 + b) :: bs)
            | none => none
          | _, _ => none := fun z => by rw [DecodeString]
      rw [List.cons_append, List.cons_append, hstep, hstep, ih']
      cases fromHexChar p <;> cases fromHexChar q <;> cases DecodeString rest <;>
        cases DecodeString y <;> simp
    | [_], hn => simp at hn; omega
    | [], hn => simp at hn

theorem isXDigit_of_isLowerHex {c : Char} (h : isLowerHex c = true) : isXDigit c = true := by
  simp only [isLowerHex, Bool.or_eq_true, Bool.and_eq_true, decide_eq_true_eq] at h
  simp only [isXDigit, Bool.or_eq_true, Bool.and_eq_true, decide_eq_true_eq]
  rcases h with h | h
  · exact Or.inl (Or.inl h)
  · exact Or.inr h

theorem toAAAA_of_forward (fl : Flags) (pfx : List Char) (reply : Msg) (name d : List Char)
    (ip : List Nat) (hd : ∀ c ∈ d, isXDigit c = true) (h1 : 1 ≤ d.length)
    (h2 : d.length ≤ 32 - pfx.length) (hname : name = fl.hostPrefixFlag ++ d ++ fl.domainFlag)
    (hip : DecodeString (pfx ++ (List.replicate (32 - pfx.length - d.length) '0' ++ d)) = some ip) :
    (serverOf fl pfx).toAAAA reply name =
      Run.done { reply with
        Answer := [RR.AAAA { Rrtype := TypeAAAA, Rdlength := ip.length % 2 ^ 16 } ip] } := by
  unfold server.toAAAA
  rw [find_forward_some fl pfx name d hd h1 h2 hname]
  have hpfx : (serverOf fl pfx).pfx = pfx := rfl
  simp only [hpfx]
  have hpad : (if (32 : Int) - (d.length : Int) - (pfx.length : Int) > 0
      then Repeat0 ((32 : Int) - (d.length : Int) - (pfx.length : Int)).toNat ++ d else d)
      = List.replicate (32 - pfx.length - d.length) '0' ++ d := by
    split_ifs with hpos
    · have : ((32 : Int) - (d.length : Int) - (pfx.length : Int)).toNat
          = 32 - pfx.length - d.length := by omega
      rw [this]; rfl
    · have : 32 - pfx.length - d.length = 0 := by omega
      rw [this]; rfl
  rw [hpad, hip]

theorem toAAAA_of_not_forward (fl : Flags) (pfx : List Char) (reply : Msg) (name : List Char)
    (h : ¬ ∃ ds : List Char, (∀ d ∈ ds, isXDigit d = true) ∧ 1 ≤ ds.length ∧
      ds.length ≤ 32 - pfx.length ∧ name = fl.hostPrefixFlag ++ ds ++ fl.domainFlag) :
    (serverOf fl pfx).toAAAA reply name = Run.done reply := by
  unfold server.toAAAA
  rw [find_forward_none fl pfx name h]

/-- The 32 digits that `toAAAA` decodes for a captured run `d`, and their bytes. -/
theorem padded_decodes (pfx d : List Char) (hpfx : ∀ c ∈ pfx, isXDigit c = true)
    (heven : pfx.length % 2 = 0) (hd : ∀ c ∈ d, isXDigit c = true)
    (h2 : d.length ≤ 32 - pfx.length) (hlen : pfx.length ≤ 32) :
    ∃ ip nb, DecodeString (pfx ++ (List.replicate (32 - pfx.length - d.length) '0' ++ d))
        = some ip ∧ ip.length = 16 ∧ (∀ b ∈ ip, b < 256) ∧
      DecodeString pfx = some nb ∧ nb.length = pfx.length / 2 ∧
      ip.take (pfx.length / 2) = nb := by
  have hall : ∀ c ∈ pfx ++ (List.replicate (32 - pfx.length - d.length) '0' ++ d),
      isXDigit c = true := by
    intro c hc
    rcases List.mem_append.mp hc with hc | hc
    · exact hpfx c hc
    · rcases List.mem_append.mp hc with hc | hc
      · rw [(List.mem_replicate.mp hc).2]; decide
      · exact hd c hc
  obtain ⟨ip, hip, hiplen, hlt⟩ := DecodeString_of_isXDigit 16 _ (by simp; omega) hall
  obtain ⟨nb, hnb, hnblen, -⟩ := DecodeString_of_isXDigit (pfx.length / 2) pfx (by omega) hpfx
  refine ⟨ip, nb, hip, hiplen, hlt, hnb, hnblen, ?_⟩
  rw [DecodeString_append (pfx.length / 2) pfx _ (by omega), hnb] at hip
  cases hrest : DecodeString (List.replicate (32 - pfx.length - d.length) '0' ++ d) with
  | none => rw [hrest] at hip; simp at hip
  | some rest =>
    rw [hrest] at hip
    simp only [Option.some.injEq] at hip
    rw [← hip, ← hnblen, List.take_left]

/-- C2. For a subnet prefix of even length `p < 32` in lowercase hex and a name
`hostPrefix ++ d ++ domainSuffix` with `d` a run of 1 to `32 - p` hex digits, `toAAAA` sets
exactly one AAAA answer; its address is the hex decoding of `prefix ++ z ++ d` with `z` a run
of `32 - p - len(d)` zeros, it has 16 bytes, and its first `p / 2` bytes are the decoded
prefix (the network bytes). -/
theorem toAAAA_address (fl : Flags) (pfx : List Char)
    (hhex : ∀ c ∈ pfx, isLowerHex c = true) (heven : pfx.length % 2 = 0)
    (hlen : pfx.length < 32) (reply : Msg) (d : List Char)
    (hd : ∀ c ∈ d, isXDigit c = true) (h1 : 1 ≤ d.length) (h2 : d.length ≤ 32 - pfx.length) :
    ∃ (ip nb : List Nat) (hdr : RR_Header),
      DecodeString (pfx ++ List.replicate (32 - pfx.length - d.length) '0' ++ d) = some ip ∧
      ip.length = 16 ∧ (∀ b ∈ ip, b < 256) ∧
      DecodeString pfx = some nb ∧ nb.length = pfx.length / 2 ∧
      ip.take (pfx.length / 2) = nb ∧ hdr.Rrtype = TypeAAAA ∧
      (serverOf fl pfx).toAAAA reply (fl.hostPrefixFlag ++ d ++ fl.domainFlag) =
        Run.done { reply with Answer := [RR.AAAA hdr ip] } := by
  obtain ⟨ip, nb, hip, hiplen, hlt, hnb, hnblen, htake⟩ :=
    padded_decodes pfx d (fun c hc => isXDigit_of_isLowerHex (hhex c hc)) heven hd h2 (by omega)
  refine ⟨ip, nb, _, ?_, hiplen, hlt, hnb, hnblen, htake, ?_,
    toAAAA_of_forward fl pfx reply _ d ip hd h1 h2 rfl hip⟩
  · rw [List.append_assoc]; exact hip
  · rfl

theorem toAAAA_address_witness :
    ∃ (ip nb : List Nat) (hdr : RR_Header),
      DecodeString (exPfx ++ List.replicate (32 - exPfx.length - "ffffffffffffffff".toList.length)
        '0' ++ "ffffffffffffffff".toList) = some ip ∧
      ip.length = 16 ∧ (∀ b ∈ ip, b < 256) ∧
      DecodeString exPfx = some nb ∧ nb.length = exPfx.length / 2 ∧
      ip.take (exPfx.length / 2) = nb ∧ hdr.Rrtype = TypeAAAA ∧
      (serverOf exFlags exPfx).toAAAA {}
          (exFlags.hostPrefixFlag ++ "ffffffffffffffff".toList ++ exFlags.domainFlag) =
        Run.done { ({} : Msg) with Answer := [RR.AAAA hdr ip] } :=
  toAAAA_address exFlags exPfx (by decide) (by decide) (by decide) {}
    "ffffffffffffffff".toList (by decide) (by decide) (by decide)

/-! ## Addresses and their reverse names -/

theorem hexDigit_spec : ∀ n < 16, isLowerHex (hexDigit n) = true ∧
    fromHexChar (hexDigit n) = some n := by decide

theorem length_hexEncode (a : List Nat) : (hexEncode a).length = 2 * a.length := by
  induction a with
  | nil => rfl
  | cons b a ih =>
    have : hexEncode (b :: a) = hexDigit (b / 16) :: hexDigit (b % 16) :: hexEncode a := rfl
    rw [this]; simp [ih]; omega

theorem isLowerHex_hexEncode (a : List Nat) (ha : ∀ b ∈ a, b < 256) :
    ∀ c ∈ hexEncode a, isLowerHex c = true := by
  induction a with
  | nil => intro c hc; simp [hexEncode] at hc
  | cons b a ih =>
    have hcons : hexEncode (b :: a) = hexDigit (b / 16) :: hexDigit (b % 16) :: hexEncode a := rfl
    have hb : b < 256 := ha b (List.mem_cons_self _ _)
    intro c hc
    rw [hcons] at hc
    rcases List.mem_cons.mp hc with rfl | hc
    · exact (hexDigit_spec (b / 16) (by omega)).1
    · rcases List.mem_cons.mp hc with rfl | hc
      · exact (hexDigit_spec (b % 16) (by omega)).1
      · exact ih (fun x hx => ha x (List.mem_cons_of_mem _ hx)) c hc

/-- Decoding the hex form of a byte string gives the byte string back. -/
theorem DecodeString_hexEncode (a : List Nat) (ha : ∀ b ∈ a, b < 256) :
    DecodeString (hexEncode a) = some a := by
  induction a with
  | nil => rfl
  | cons b a ih =>
    have hcons : hexEncode (b :: a) = hexDigit (b / 16) :: hexDigit (b % 16) :: hexEncode a := rfl
    have hb : b < 256 := ha b (List.mem_cons_self _ _)
    rw [hcons, DecodeString, (hexDigit_spec (b / 16) (by omega)).2,
      (hexDigit_spec (b % 16) (by omega)).2, ih (fun x hx => ha x (List.mem_cons_of_mem _ hx))]
    simp only [Option.some.injEq, List.cons.injEq, and_true]
    omega

/-- A host part with a non-zero digit keeps at least one digit when trimmed. -/
theorem TrimLeft0_ne_nil (x : List Char) (h : ∃ c ∈ x, c ≠ '0') : TrimLeft0 x ≠ [] := by
  obtain ⟨k, hk, -⟩ := TrimLeft0_spec x
  intro hnil
  rw [hnil, List.append_nil] at hk
  obtain ⟨c, hc, hne⟩ := h
  rw [hk] at hc
  exact hne (List.mem_replicate.mp hc).2

/-- C4. For a subnet prefix of even length `p < 32` and a 16-byte address `a` whose first `p`
hex digits are the prefix and whose remaining digits are not all zero: `toPTR` answers the
canonical reverse name of `a` with a host name `h`, and `toAAAA` answers `h` with exactly the
bytes of `a`. -/
theorem ptr_aaaa_round_trip (fl : Flags) (pfx : List Char) (heven : pfx.length % 2 = 0)
    (hlen : pfx.length < 32) (a : List Nat) (ha : a.length = 16) (hbyte : ∀ b ∈ a, b < 256)
    (hsub : (hexEncode a).take pfx.length = pfx)
    (hnz : ∃ c ∈ (hexEncode a).drop pfx.length, c ≠ '0') (reply reply' : Msg) :
    ∃ (h : List Char) (hdr hdr' : RR_Header),
      (serverOf fl pfx).toPTR fl reply (reverseNameOf a) =
        Run.done { reply with Answer := [RR.PTR hdr h] } ∧
      (serverOf fl pfx).toAAAA reply' h =
        Run.done { reply' with Answer := [RR.AAAA hdr' a] } := by
  have hx : ∀ c ∈ hexEncode a, isXDigit c = true :=
    fun c hc => isXDigit_of_isLowerHex (isLowerHex_hexEncode a hbyte c hc)
  have hl : (hexEncode a).length = 32 := by rw [length_hexEncode, ha]
  have hpre : pfx <+: (hexEncode a).reverse.reverse := by
    rw [List.reverse_reverse]
    exact List.prefix_iff_eq_take.mpr hsub.symm
  have hptr := toPTR_of_reverse fl pfx reply (reverseNameOf a) (hexEncode a).reverse
    (by rw [List.length_reverse, hl]) (fun c hc => hx c (List.mem_reverse.mp hc)) rfl hpre
  rw [List.reverse_reverse] at hptr
  obtain ⟨k, hk, -⟩ := TrimLeft0_spec ((hexEncode a).drop pfx.length)
  have hkl := congrArg List.length hk
  simp only [List.length_drop, List.length_append, List.length_replicate, hl] at hkl
  have hne : TrimLeft0 ((hexEncode a).drop pfx.length) ≠ [] := TrimLeft0_ne_nil _ hnz
  have hpos : 1 ≤ (TrimLeft0 ((hexEncode a).drop pfx.length)).length :=
    Nat.one_le_iff_ne_zero.mpr (fun h0 => hne (List.length_eq_zero.mp h0))
  have hdig : ∀ c ∈ TrimLeft0 ((hexEncode a).drop pfx.length), isXDigit c = true := by
    intro c hc
    apply hx c
    apply List.mem_of_mem_drop (n := pfx.length)
    rw [hk]
    exact List.mem_append_right _ hc
  have hdec : DecodeString (pfx ++ (List.replicate
      (32 - pfx.length - (TrimLeft0 ((hexEncode a).drop pfx.length)).length) '0' ++
      TrimLeft0 ((hexEncode a).drop pfx.length))) = some a := by
    have hkk : 32 - pfx.length - (TrimLeft0 ((hexEncode a).drop pfx.length)).length = k := by
      omega
    have hsplit : pfx ++ (hexEncode a).drop pfx.length = hexEncode a := by
      have := List.take_append_drop pfx.length (hexEncode a)
      rw [hsub] at this
      exact this
    rw [hkk, ← hk, hsplit]
    exact DecodeString_hexEncode a hbyte
  exact ⟨_, _, _, hptr,
    toAAAA_of_forward fl pfx reply' _ _ a hdig hpos (by omega) rfl hdec⟩

theorem ptr_aaaa_round_trip_witness :
    ∃ (h : List Char) (hdr hdr' : RR_Header),
      (serverOf exFlags exPfx).toPTR exFlags {}
          (reverseNameOf [254, 128, 0, 0, 0, 0, 0, 0, 0, 0, 0, 0, 0, 0, 0, 1]) =
        Run.done { ({} : Msg) with Answer := [RR.PTR hdr h] } ∧
      (serverOf exFlags exPfx).toAAAA {} h =
        Run.done { ({} : Msg) with
          Answer := [RR.AAAA hdr' [254, 128, 0, 0, 0, 0, 0, 0, 0, 0, 0, 0, 0, 0, 0, 1]] } :=
  ptr_aaaa_round_trip exFlags exPfx (by decide) (by decide)
    [254, 128, 0, 0, 0, 0, 0, 0, 0, 0, 0, 0, 0, 0, 0, 1] (by decide) (by decide) (by decide)
    ⟨'1', by decide, by decide⟩ {} {}

/-! ## `ServeDNS` -/

theorem SetReply_fresh (m : Msg) :
    (Msg.SetReply {} m).Answer = [] ∧ (Msg.SetReply {} m).Ns = [] ∧
    (Msg.SetReply {} m).Authoritative = false ∧ (Msg.SetReply {} m).Rcode = RcodeSuccess := by
  unfold Msg.SetReply
  cases m.Question <;> (simp only []; split_ifs <;> simp [RcodeSuccess])

/-- The three possible outcomes of `toNS`. -/
theorem toNS_cases (fl : Flags) (s : server) (reply : Msg) (name : List Char) :
    s.toNS fl reply name = Run.panic ∨ s.toNS fl reply name = Run.done reply ∨
    s.toNS fl reply name = Run.done { reply with Ns :=
      [RR.NS { Rrtype := TypeNS, Rdlength := byteLen fl.nsFlag % 2 ^ 16 } fl.nsFlag] } := by
  unfold server.toNS
  rcases s.hexMatch s.ns name with _ | ⟨x, b⟩
  · exact Or.inl rfl
  · cases b
    · exact Or.inr (Or.inl rfl)
    · exact Or.inr (Or.inr rfl)

/-- The three possible outcomes of `toPTR`. -/
theorem toPTR_cases (fl : Flags) (s : server) (reply : Msg) (name : List Char) :
    s.toPTR fl reply name = Run.panic ∨ s.toPTR fl reply name = Run.done reply ∨
    ∃ ptr, s.toPTR fl reply name = Run.done { reply with Answer :=
      [RR.PTR { Rrtype := TypePTR, Rdlength := byteLen ptr % 2 ^ 16 } ptr] } := by
  unfold server.toPTR
  rcases s.hexMatch s.ptr name with _ | ⟨x, b⟩
  · exact Or.inl rfl
  · cases b
    · exact Or.inr (Or.inl rfl)
    · exact Or.inr (Or.inr ⟨_, rfl⟩)

/-- The two possible outcomes of `toAAAA`. -/
theorem toAAAA_cases (s : server) (reply : Msg) (name : List Char) :
    s.toAAAA reply name = Run.done reply ∨
    ∃ ip, s.toAAAA reply name = Run.done { reply with Answer :=
      [RR.AAAA { Rrtype := TypeAAAA, Rdlength := ip.length % 2 ^ 16 } ip] } := by
  unfold server.toAAAA
  rcases s.aaaa.FindStringSubmatch name with _ | ⟨m0, m1⟩
  · exact Or.inl rfl
  · simp only []
    split
    · exact Or.inl rfl
    · exact Or.inr ⟨_, rfl⟩

/-- `ServeDNS` on a one-question request whose handler left one record in the answer section. -/
theorem ServeDNS_of_answer (fl : Flags) (s : server) (m : Msg) (q : Question)
    (hq : m.Question = [q]) (reply' : Msg) (rr : RR)
    (hsw : (if q.Qtype = TypeNS then s.toNS fl (Msg.SetReply {} m) q.Name
      else if q.Qtype = TypePTR then s.toPTR fl (Msg.SetReply {} m) q.Name
      else if q.Qtype = TypeAAAA then s.toAAAA (Msg.SetReply {} m) q.Name
      else Run.done (Msg.SetReply {} m)) = Run.done reply')
    (hans : reply'.Answer = [rr]) :
    s.ServeDNS fl m = Run.done (some { reply' with
      Authoritative := true,
      Answer := [rr.setHeader { rr.Header with
        Class := ClassINET, Name := q.Name, Ttl := (fl.ttlFlag % 2 ^ 32).toNat }] }) := by
  unfold server.ServeDNS
  rw [hq]
  simp only [hsw, hans]

/-- `ServeDNS` on a one-question request whose handler left one record in the authority
section and none in the answer section. -/
theorem ServeDNS_of_authority (fl : Flags) (s : server) (m : Msg) (q : Question)
    (hq : m.Question = [q]) (reply' : Msg) (rr : RR)
    (hsw : (if q.Qtype = TypeNS then s.toNS fl (Msg.SetReply {} m) q.Name
      else if q.Qtype = TypePTR then s.toPTR fl (Msg.SetReply {} m) q.Name
      else if q.Qtype = TypeAAAA then s.toAAAA (Msg.SetReply {} m) q.Name
      else Run.done (Msg.SetReply {} m)) = Run.done reply')
    (hans : reply'.Answer = []) (hns : reply'.Ns = [rr]) :
    s.ServeDNS fl m = Run.done (some { reply' with
      Authoritative := true,
      Ns := [rr.setHeader { rr.Header with
        Class := ClassINET, Name := q.Name, Ttl := (fl.ttlFlag % 2 ^ 32).toNat }] }) := by
  unfold server.ServeDNS
  rw [hq]
  simp only [hsw, hans, hns]

/-- `ServeDNS` on a one-question request whose handler left no record. -/
theorem ServeDNS_of_nothing (fl : Flags) (s : server) (m : Msg) (q : Question)
    (hq : m.Question = [q]) (reply' : Msg)
    (hsw : (if q.Qtype = TypeNS then s.toNS fl (Msg.SetReply {} m) q.Name
      else if q.Qtype = TypePTR then s.toPTR fl (Msg.SetReply {} m) q.Name
      else if q.Qtype = TypeAAAA then s.toAAAA (Msg.SetReply {} m) q.Name
      else Run.done (Msg.SetReply {} m)) = Run.done reply')
    (hans : reply'.Answer = []) (hns : reply'.Ns = []) :
    s.ServeDNS fl m = Run.done (some { reply' with Rcode := RcodeNameError }) := by
  unfold server.ServeDNS
  rw [hq]
  simp only [hsw, hans, hns]

/-- `ServeDNS` on a one-question request whose handler panics. -/
theorem ServeDNS_of_panic (fl : Flags) (s : server) (m : Msg) (q : Question)
    (hq : m.Question = [q])
    (hsw : (if q.Qtype = TypeNS then s.toNS fl (Msg.SetReply {} m) q.Name
      else if q.Qtype = TypePTR then s.toPTR fl (Msg.SetReply {} m) q.Name
      else if q.Qtype = TypeAAAA then s.toAAAA (Msg.SetReply {} m) q.Name
      else Run.done (Msg.SetReply {} m)) = Run.panic) :
    s.ServeDNS fl m = Run.panic := by
  unfold server.ServeDNS
  rw [hq]
  simp only [hsw]

theorem ttl_conversion (ttl : Int) (h0 : 0 ≤ ttl) (h1 : ttl < 2 ^ 32) :
    (((ttl % 2 ^ 32).toNat : Nat) : Int) = ttl := by
  rw [Int.emod_eq_of_lt h0 h1, Int.toNat_of_nonneg h0]

theorem setHeader_setHeader (rr : RR) (h : RR_Header) : (rr.setHeader h).setHeader rr.Header = rr := by
  cases rr <;> rfl

theorem Header_setHeader (rr : RR) (h : RR_Header) : (rr.setHeader h).Header = h := by
  cases rr <;> rfl

theorem stamped_setHeader (fl : Flags) (q : Question) (rr : RR)
    (h0 : 0 ≤ fl.ttlFlag) (h1 : fl.ttlFlag < 2 ^ 32) :
    Stamped fl q rr (rr.setHeader { rr.Header with
      Class := ClassINET, Name := q.Name, Ttl := (fl.ttlFlag % 2 ^ 32).toNat }) := by
  unfold Stamped
  rw [Header_setHeader]
  exact ⟨rfl, ttl_conversion fl.ttlFlag h0 h1, rfl, rfl, rfl, by cases rr <;> rfl⟩

/-- C6. For a request with exactly one question and a configured TTL in `0 .. 2^32-1`: when
the handler selected by the question type (`toNS`, `toPTR`, `toAAAA`) produced a record, the
reply written by `ServeDNS` is authoritative, has result code success, and carries exactly
that one record (authority section for NS, answer section for PTR and AAAA, the other
section empty) with class Internet, the configured TTL and the query name in its header and
everything else as the handler produced it. -/
theorem ServeDNS_stamps_record (fl : Flags) (s : server) (m : Msg) (q : Question)
    (hq : m.Question = [q]) (h0 : 0 ≤ fl.ttlFlag) (h1 : fl.ttlFlag < 2 ^ 32) :
    (q.Qtype = TypeNS → ∀ reply', s.toNS fl (Msg.SetReply {} m) q.Name = Run.done reply' →
      reply'.Ns ≠ [] →
      ∃ rr rr' r, reply'.Ns = [rr] ∧ s.ServeDNS fl m = Run.done (some r) ∧
        r.Authoritative = true ∧ r.Rcode = RcodeSuccess ∧ r.Answer = [] ∧ r.Ns = [rr'] ∧
        Stamped fl q rr rr') ∧
    (q.Qtype = TypePTR → ∀ reply', s.toPTR fl (Msg.SetReply {} m) q.Name = Run.done reply' →
      reply'.Answer ≠ [] →
      ∃ rr rr' r, reply'.Answer = [rr] ∧ s.ServeDNS fl m = Run.done (some r) ∧
        r.Authoritative = true ∧ r.Rcode = RcodeSuccess ∧ r.Answer = [rr'] ∧ r.Ns = [] ∧
        Stamped fl q rr rr') ∧
    (q.Qtype = TypeAAAA → ∀ reply', s.toAAAA (Msg.SetReply {} m) q.Name = Run.done reply' →
      reply'.Answer ≠ [] →
      ∃ rr rr' r, reply'.Answer = [rr] ∧ s.ServeDNS fl m = Run.done (some r) ∧
        r.Authoritative = true ∧ r.Rcode = RcodeSuccess ∧ r.Answer = [rr'] ∧ r.Ns = [] ∧
        Stamped fl q rr rr') := by
  obtain ⟨fa, fn, -, fr⟩ := SetReply_fresh m
  refine ⟨fun hqt reply' hrun hne => ?_, fun hqt reply' hrun hne => ?_,
    fun hqt reply' hrun hne => ?_⟩
  · have hsw : (if q.Qtype = TypeNS then s.toNS fl (Msg.SetReply {} m) q.Name
        else if q.Qtype = TypePTR then s.toPTR fl (Msg.SetReply {} m) q.Name
        else if q.Qtype = TypeAAAA then s.toAAAA (Msg.SetReply {} m) q.Name
        else Run.done (Msg.SetReply {} m)) = Run.done reply' := by
      rw [if_pos hqt, hrun]
    rcases toNS_cases fl s (Msg.SetReply {} m) q.Name with h | h | h
    · rw [h] at hrun; cases hrun
    · rw [h] at hrun
      injection hrun with hrun
      rw [← hrun] at hne
      exact absurd fn hne
    · rw [h] at hrun
      injection hrun with hrun
      subst hrun
      refine ⟨_, _, _, rfl, ServeDNS_of_authority fl s m q hq _ _ hsw fa rfl, rfl, fr, fa, rfl,
        stamped_setHeader fl q _ h0 h1⟩
  · have hsw : (if q.Qtype = TypeNS then s.toNS fl (Msg.SetReply {} m) q.Name
        else if q.Qtype = TypePTR then s.toPTR fl (Msg.SetReply {} m) q.Name
        else if q.Qtype = TypeAAAA then s.toAAAA (Msg.SetReply {} m) q.Name
        else Run.done (Msg.SetReply {} m)) = Run.done reply' := by
      rw [if_neg (by rw [hqt]; decide), if_pos hqt, hrun]
    rcases toPTR_cases fl s (Msg.SetReply {} m) q.Name with h | h | ⟨ptr, h⟩
    · rw [h] at hrun; cases hrun
    · rw [h] at hrun
      injection hrun with hrun
      rw [← hrun] at hne
      exact absurd fa hne
    · rw [h] at hrun
      injection hrun with hrun
      subst hrun
      refine ⟨_, _, _, rfl, ServeDNS_of_answer fl s m q hq _ _ hsw rfl, rfl, fr, rfl, fn,
        stamped_setHeader fl q _ h0 h1⟩
  · have hsw : (if q.Qtype = TypeNS then s.toNS fl (Msg.SetReply {} m) q.Name
        else if q.Qtype = TypePTR then s.toPTR fl (Msg.SetReply {} m) q.Name
        else if q.Qtype = TypeAAAA then s.toAAAA (Msg.SetReply {} m) q.Name
        else Run.done (Msg.SetReply {} m)) = Run.done reply' := by
      rw [if_neg (by rw [hqt]; decide), if_neg (by rw [hqt]; decide), if_pos hqt, hrun]
    rcases toAAAA_cases s (Msg.SetReply {} m) q.Name with h | ⟨ip, h⟩
    · rw [h] at hrun
      injection hrun with hrun
      rw [← hrun] at hne
      exact absurd fa hne
    · rw [h] at hrun
      injection hrun with hrun
      subst hrun
      refine ⟨_, _, _, rfl, ServeDNS_of_answer fl s m q hq _ _ hsw rfl, rfl, fr, rfl, fn,
        stamped_setHeader fl q _ h0 h1⟩

theorem ServeDNS_stamps_record_witness :
    ∃ rr rr' r,
      ({ Response := true, Question := [⟨reverseName exHost1, TypePTR, ClassINET⟩],
         Answer := [RR.PTR { Rrtype := 12, Rdlength := 20 } "ip-1.v6.example.com.".toList] } :
        Msg).Answer = [rr] ∧
      (serverOf exFlags exPfx).ServeDNS exFlags
          { Question := [⟨reverseName exHost1, TypePTR, ClassINET⟩] } = Run.done (some r) ∧
      r.Authoritative = true ∧ r.Rcode = RcodeSuccess ∧ r.Answer = [rr'] ∧ r.Ns = [] ∧
      Stamped exFlags ⟨reverseName exHost1, TypePTR, ClassINET⟩ rr rr' :=
  (ServeDNS_stamps_record exFlags (serverOf exFlags exPfx)
    { Question := [⟨reverseName exHost1, TypePTR, ClassINET⟩] }
    ⟨reverseName exHost1, TypePTR, ClassINET⟩ rfl (by decide) (by decide)).2.1 rfl
    { Response := true, Question := [⟨reverseName exHost1, TypePTR, ClassINET⟩],
      Answer := [RR.PTR { Rrtype := 12, Rdlength := 20 } "ip-1.v6.example.com.".toList] }
    (by decide) (by decide)

/-- `ServeDNS` on a one-question request of a type other than NS, PTR and AAAA. -/
theorem ServeDNS_other_type (fl : Flags) (s : server) (m : Msg) (q : Question)
    (hq : m.Question = [q]) (hns : q.Qtype ≠ TypeNS) (hptr : q.Qtype ≠ TypePTR)
    (haaaa : q.Qtype ≠ TypeAAAA) :
    s.ServeDNS fl m = Run.done (some { Msg.SetReply {} m with Rcode := RcodeNameError }) := by
  obtain ⟨fa, fn, -, -⟩ := SetReply_fresh m
  exact ServeDNS_of_nothing fl s m q hq _ (by rw [if_neg hns, if_neg hptr, if_neg haaaa]) fa fn

/-- Whenever the selected handler returns, `ServeDNS` writes a reply, and the reply is a name
error without records exactly when the handler left the reply as it was. -/
theorem ServeDNS_rcode (fl : Flags) (s : server) (m : Msg) (q : Question)
    (hq : m.Question = [q]) (reply' : Msg)
    (hsw : (if q.Qtype = TypeNS then s.toNS fl (Msg.SetReply {} m) q.Name
      else if q.Qtype = TypePTR then s.toPTR fl (Msg.SetReply {} m) q.Name
      else if q.Qtype = TypeAAAA then s.toAAAA (Msg.SetReply {} m) q.Name
      else Run.done (Msg.SetReply {} m)) = Run.done reply') :
    ∃ r, s.ServeDNS fl m = Run.done (some r) ∧
      (reply' = Msg.SetReply {} m →
        r.Rcode = RcodeNameError ∧ r.Answer = [] ∧ r.Ns = [] ∧ r.Authoritative = false) ∧
      (reply' ≠ Msg.SetReply {} m →
        r.Rcode = RcodeSuccess ∧ r.Authoritative = true ∧ (r.Answer ≠ [] ∨ r.Ns ≠ [])) := by
  obtain ⟨fa, fn, fauth, fr⟩ := SetReply_fresh m
  by_cases hsame : reply' = Msg.SetReply {} m
  · subst hsame
    exact ⟨_, ServeDNS_of_nothing fl s m q hq _ hsw fa fn,
      fun _ => ⟨rfl, fa, fn, fauth⟩, fun h => absurd rfl h⟩
  · have key : (∃ rr, reply'.Answer = [rr] ∧ reply'.Rcode = RcodeSuccess) ∨
        (∃ rr, reply'.Answer = [] ∧ reply'.Ns = [rr] ∧ reply'.Rcode = RcodeSuccess) := by
      by_cases h1 : q.Qtype = TypeNS
      · rw [if_pos h1] at hsw
        rcases toNS_cases fl s (Msg.SetReply {} m) q.Name with h | h | h
        · rw [h] at hsw; cases hsw
        · rw [h] at hsw; injection hsw with hsw; exact absurd hsw.symm hsame
        · rw [h] at hsw; injection hsw with hsw; subst hsw
          exact Or.inr ⟨_, fa, rfl, fr⟩
      · rw [if_neg h1] at hsw
        by_cases h2 : q.Qtype = TypePTR
        · rw [if_pos h2] at hsw
          rcases toPTR_cases fl s (Msg.SetReply {} m) q.Name with h | h | ⟨ptr, h⟩
          · rw [h] at hsw; cases hsw
          · rw [h] at hsw; injection hsw with hsw; exact absurd hsw.symm hsame
          · rw [h] at hsw; injection hsw with hsw; subst hsw
            exact Or.inl ⟨_, rfl, fr⟩
        · rw [if_neg h2] at hsw
          by_cases h3 : q.Qtype = TypeAAAA
          · rw [if_pos h3] at hsw
            rcases toAAAA_cases s (Msg.SetReply {} m) q.Name with h | ⟨ip, h⟩
            · rw [h] at hsw; injection hsw with hsw; exact absurd hsw.symm hsame
            · rw [h] at hsw; injection hsw with hsw; subst hsw
              exact Or.inl ⟨_, rfl, fr⟩
          · rw [if_neg h3] at hsw
            injection hsw with hsw
            exact absurd hsw.symm hsame
    rcases key with ⟨rr, ha, hr⟩ | ⟨rr, ha, hn, hr⟩
    · exact ⟨_, ServeDNS_of_answer fl s m q hq _ rr hsw ha,
        fun h => absurd h hsame, fun _ => ⟨hr, rfl, Or.inl (by simp)⟩⟩
    · exact ⟨_, ServeDNS_of_authority fl s m q hq _ rr hsw ha hn,
        fun h => absurd h hsame, fun _ => ⟨hr, rfl, Or.inr (by simp)⟩⟩

/-- C7 at the failing input: with the empty prefix of `-network ::/0`, an NS question for
`ip6.arpa.` makes `ServeDNS` panic, so no reply (neither a name error nor an answer) is
written; an MX question for the same name is answered with a name error. -/
theorem ServeDNS_zone_apex_panics :
    (serverOf exFlags []).ServeDNS exFlags
        { Question := [⟨ip6arpa, TypeNS, ClassINET⟩] } = Run.panic ∧
    (serverOf exFlags []).ServeDNS exFlags { Question := [⟨ip6arpa, 15, ClassINET⟩] } =
      Run.done (some { Response := true, Rcode := RcodeNameError,
                       Question := [⟨ip6arpa, 15, ClassINET⟩] }) := by
  constructor <;> decide

/-! ## Boundary cases -/

/-- The only digit run that can sit between the host prefix and the domain suffix of
`hostPrefix ++ d ++ domainSuffix` is `d` itself. -/
theorem forward_run_unique (hp dom d ds : List Char) (h : hp ++ d ++ dom = hp ++ ds ++ dom) :
    ds = d := by
  rw [List.append_assoc, List.append_assoc] at h
  exact (List.append_cancel_right (List.append_cancel_left h)).symm

/-- C8. For a subnet prefix of length `p < 32`, any host prefix and domain suffix, and any
run `d` of more than `32 - p` hex digits, `toAAAA` leaves the reply without an answer for
the name `hostPrefix ++ d ++ domainSuffix`. -/
theorem toAAAA_digit_overflow (fl : Flags) (pfx : List Char) (_hlen : pfx.length < 32)
    (reply : Msg) (d : List Char) (_hd : ∀ c ∈ d, isXDigit c = true)
    (hover : 32 - pfx.length < d.length) :
    (serverOf fl pfx).toAAAA reply (fl.hostPrefixFlag ++ d ++ fl.domainFlag) = Run.done reply := by
  apply toAAAA_of_not_forward
  rintro ⟨ds, -, -, h2, hname⟩
  rw [forward_run_unique _ _ _ _ hname] at h2
  omega

theorem toAAAA_digit_overflow_witness :
    (serverOf exFlags exPfx).toAAAA {}
        (exFlags.hostPrefixFlag ++ "fffffffffffffffff".toList ++ exFlags.domainFlag) =
      Run.done {} :=
  toAAAA_digit_overflow exFlags exPfx (by decide) {} "fffffffffffffffff".toList
    (by decide) (by decide)

/-- A dot-free label followed by a dot can be read off the front of a text in one way only. -/
theorem label_split_unique (l l' r r' : List Char) (hl : '.' ∉ l) (hl' : '.' ∉ l')
    (h : l ++ '.' :: r = l' ++ '.' :: r') : l = l' ∧ r = r' := by
  induction l generalizing l' with
  | nil =>
    cases l' with
    | nil => simpa using h
    | cons c l' =>
      simp only [List.nil_append, List.cons_append, List.cons.injEq] at h
      exact absurd (h.1 ▸ List.mem_cons_self _ _) hl'
  | cons a l ih =>
    cases l' with
    | nil =>
      simp only [List.nil_append, List.cons_append, List.cons.injEq] at h
      exact absurd (h.1 ▸ List.mem_cons_self _ _) hl
    | cons c l' =>
      simp only [List.cons_append, List.cons.injEq] at h
      obtain ⟨hac, h⟩ := h
      obtain ⟨e1, e2⟩ := ih l' (fun hm => hl (List.mem_cons_of_mem _ hm))
        (fun hm => hl' (List.mem_cons_of_mem _ hm)) h
      exact ⟨by rw [hac, e1], e2⟩

/-- A text splits into dot-terminated, dot-free labels in one way only. -/
theorem labels_unique (ls ls' : List (List Char)) (h1 : ∀ l ∈ ls, '.' ∉ l)
    (h2 : ∀ l ∈ ls', '.' ∉ l)
    (h : ls.flatMap (fun l => l ++ ['.']) = ls'.flatMap (fun l => l ++ ['.'])) : ls = ls' := by
  induction ls generalizing ls' with
  | nil =>
    cases ls' with
    | nil => rfl
    | cons l' ls' => simp at h
  | cons l ls ih =>
    cases ls' with
    | nil => simp at h
    | cons l' ls' =>
      simp only [List.flatMap_cons, List.append_assoc, List.singleton_append] at h
      obtain ⟨e1, e2⟩ := label_split_unique l l' _ _ (h1 l (List.mem_cons_self _ _))
        (h2 l' (List.mem_cons_self _ _)) h
      rw [e1, ih ls' (fun x hx => h1 x (List.mem_cons_of_mem _ hx))
        (fun x hx => h2 x (List.mem_cons_of_mem _ hx)) e2]

theorem dotted_eq_labels (ds : List Char) :
    dotted ds = (ds.map fun d => [d]).flatMap (fun l => l ++ ['.']) := by
  induction ds with
  | nil => rfl
  | cons d ds ih =>
    have : dotted (d :: ds) = d :: '.' :: dotted ds := rfl
    rw [this, ih]; rfl

theorem dotted_injective (ds ds' : List Char) (h : dotted ds = dotted ds') : ds = ds' := by
  induction ds generalizing ds' with
  | nil =>
    cases ds' with
    | nil => rfl
    | cons d' ds' => exact absurd h (by simp [dotted])
  | cons d ds ih =>
    cases ds' with
    | nil => exact absurd h (by simp [dotted])
    | cons d' ds' =>
      have e1 : dotted (d :: ds) = d :: '.' :: dotted ds := rfl
      have e2 : dotted (d' :: ds') = d' :: '.' :: dotted ds' := rfl
      rw [e1, e2] at h
      simp only [List.cons.injEq, true_and] at h
      rw [h.1, ih ds' h.2]

/-- C9. Malformed hex gets no answer, for every configuration:
(a) a reverse name of 32 dot-terminated labels under `ip6.arpa.` with a label that is not a
single hex digit gets no answer from `toPTR`;
(b) a forward name `hostPrefix ++ d ++ domainSuffix` whose `d` has a character that is not a
hex digit gets no answer from `toAAAA`. -/
theorem malformed_hex_rejected (fl : Flags) (pfx : List Char) (reply : Msg) :
    (∀ labels : List (List Char), labels.length = 32 → (∀ l ∈ labels, '.' ∉ l) →
      (∃ l ∈ labels, isNibbleLabel l = false) →
      (serverOf fl pfx).toPTR fl reply (labels.flatMap (fun l => l ++ ['.']) ++ ip6arpa) =
        Run.done reply) ∧
    (∀ d : List Char, (∃ c ∈ d, isXDigit c = false) →
      (serverOf fl pfx).toAAAA reply (fl.hostPrefixFlag ++ d ++ fl.domainFlag) =
        Run.done reply) := by
  constructor
  · intro labels _ hdot hbad
    apply toPTR_of_not_reverse
    rintro ⟨ds, -, hds, hname, -⟩
    have hname' := List.append_cancel_right hname
    rw [dotted_eq_labels] at hname'
    have hlab := labels_unique _ _ hdot (by
      intro l hl
      obtain ⟨d, hd, rfl⟩ := List.mem_map.mp hl
      simpa using (ne_dot_of_isXDigit (hds d hd)).symm) hname'
    obtain ⟨l, hl, hnot⟩ := hbad
    rw [hlab] at hl
    obtain ⟨d, hd, rfl⟩ := List.mem_map.mp hl
    have : isNibbleLabel [d] = true := hds d hd
    rw [this] at hnot
    cases hnot
  · rintro d ⟨c, hc, hbad⟩
    apply toAAAA_of_not_forward
    rintro ⟨ds, hds, -, -, hname⟩
    rw [forward_run_unique _ _ _ _ hname] at hds
    rw [hds c hc] at hbad
    cases hbad

theorem malformed_hex_rejected_witness :
    (serverOf exFlags exPfx).toPTR exFlags {}
        (((List.replicate 31 ['0']) ++ [['f', 'e']]).flatMap (fun l => l ++ ['.']) ++ ip6arpa) =
      Run.done {} ∧
    (serverOf exFlags exPfx).toAAAA {}
        (exFlags.hostPrefixFlag ++ "12g4".toList ++ exFlags.domainFlag) = Run.done {} :=
  ⟨(malformed_hex_rejected exFlags exPfx {}).1 ((List.replicate 31 ['0']) ++ [['f', 'e']])
      (by decide) (by decide) ⟨['f', 'e'], by decide, by decide⟩,
   (malformed_hex_rejected exFlags exPfx {}).2 "12g4".toList ⟨'g', by decide, by decide⟩⟩

/-! ## Trimming of the host identifier -/

/-- Two strings of the same length with the same trimmed form are equal. -/
theorem TrimLeft0_injective (x y : List Char) (hlen : x.length = y.length)
    (h : TrimLeft0 x = TrimLeft0 y) : x = y := by
  obtain ⟨k, hk, -⟩ := TrimLeft0_spec x
  obtain ⟨k', hk', -⟩ := TrimLeft0_spec y
  have lx := congrArg List.length hk
  have ly := congrArg List.length hk'
  rw [List.length_append, List.length_replicate] at lx ly
  rw [h] at lx
  have : k = k' := by omega
  rw [hk, hk', h, this]

/-- When `toPTR` answers the reverse name of a digit string, the string has 32 digits, starts
with the prefix, and the target is built from the trimmed remainder. -/
theorem ptrTargetOf_reverseName (fl : Flags) (pfx ds h : List Char)
    (hans : ptrTargetOf ((serverOf fl pfx).toPTR fl {} (reverseName ds)) = some h) :
    ds.length = 32 ∧ pfx <+: ds ∧
      h = fl.hostPrefixFlag ++ TrimLeft0 (ds.drop pfx.length) ++ fl.domainFlag := by
  by_cases hA : ∃ ds' : List Char, ds'.length = 32 ∧ (∀ d ∈ ds', isXDigit d = true) ∧
      reverseName ds = dotted ds' ++ ip6arpa ∧ pfx <+: ds'.reverse
  · obtain ⟨ds', hlen, hds, hname, hpre⟩ := hA
    have hrev : ds' = ds.reverse :=
      (dotted_injective _ _ (List.append_cancel_right hname)).symm
    rw [toPTR_of_reverse fl pfx {} _ ds' hlen hds hname hpre] at hans
    subst hrev
    rw [List.reverse_reverse] at hans hpre
    rw [List.length_reverse] at hlen
    refine ⟨hlen, hpre, ?_⟩
    simp only [ptrTargetOf, Option.some.injEq] at hans
    exact hans.symm
  · rw [toPTR_of_not_reverse fl pfx {} _ hA] at hans
    cases hans

/-- The host names given to two padded host identifiers of one subnet differ as soon as the
identifiers differ. -/
theorem padded_hosts_distinct (fl : Flags) (pfx x y h : List Char)
    (hx : x.length = 32 - pfx.length) (hy : y.length = 32 - pfx.length)
    (h1 : ptrTargetOf ((serverOf fl pfx).toPTR fl {} (reverseName (pfx ++ x))) = some h)
    (h2 : ptrTargetOf ((serverOf fl pfx).toPTR fl {} (reverseName (pfx ++ y))) = some h) :
    x = y := by
  obtain ⟨-, -, e1⟩ := ptrTargetOf_reverseName fl pfx _ h h1
  obtain ⟨-, -, e2⟩ := ptrTargetOf_reverseName fl pfx _ h h2
  rw [List.drop_left] at e1 e2
  rw [e1, List.append_assoc, List.append_assoc] at e2
  exact TrimLeft0_injective x y (by rw [hx, hy])
    (List.append_cancel_right (List.append_cancel_left e2))

/-- C10, refuted as stated: in no configuration are there two distinct padded host
identifiers (strings of exactly `32 - len(prefix)` hex digits) whose reverse names `toPTR`
answers with the same host name. -/
theorem no_two_padded_hosts_share_a_name :
    ¬ ∃ (fl : Flags) (pfx x y h : List Char),
      x.length = 32 - pfx.length ∧ y.length = 32 - pfx.length ∧
      (∀ c ∈ x, isXDigit c = true) ∧ (∀ c ∈ y, isXDigit c = true) ∧ x ≠ y ∧
      ptrTargetOf ((serverOf fl pfx).toPTR fl {} (reverseName (pfx ++ x))) = some h ∧
      ptrTargetOf ((serverOf fl pfx).toPTR fl {} (reverseName (pfx ++ y))) = some h := by
  rintro ⟨fl, pfx, x, y, h, hx, hy, -, -, hne, h1, h2⟩
  exact hne (padded_hosts_distinct fl pfx x y h hx hy h1 h2)

/-- C10, amended: trimming loses nothing among the padded host identifiers of a subnet: in
every configuration, two strings of exactly `32 - len(prefix)` digits whose reverse names
`toPTR` answers with the same host name are equal. -/
theorem toPTR_injective_on_padded (fl : Flags) (pfx x y h : List Char)
    (hx : x.length = 32 - pfx.length) (hy : y.length = 32 - pfx.length)
    (h1 : ptrTargetOf ((serverOf fl pfx).toPTR fl {} (reverseName (pfx ++ x))) = some h)
    (h2 : ptrTargetOf ((serverOf fl pfx).toPTR fl {} (reverseName (pfx ++ y))) = some h) :
    x = y :=
  padded_hosts_distinct fl pfx x y h hx hy h1 h2

theorem toPTR_injective_on_padded_witness :
    ptrTargetOf ((serverOf exFlags exPfx).toPTR exFlags {}
        (reverseName (exPfx ++ "0000000000000001".toList))) = some "ip-1.v6.example.com.".toList ∧
      "0000000000000001".toList = "0000000000000001".toList :=
  ⟨by decide,
   toPTR_injective_on_padded exFlags exPfx "0000000000000001".toList "0000000000000001".toList
    "ip-1.v6.example.com.".toList (by decide) (by decide) (by decide) (by decide)⟩

/-! ## Letter case of hex digits -/

theorem isXDigit_mem {c : Char} (h : isXDigit c = true) :
    c ∈ "0123456789ABCDEFabcdef".toList := by
  have hle : ∀ a b : Char, a ≤ b ↔ a.toNat ≤ b.toNat := fun a b => Iff.rfl
  simp only [isXDigit, Bool.or_eq_true, Bool.and_eq_true, decide_eq_true_eq, hle] at h
  have e0 : '0'.toNat = 48 := rfl
  have e9 : '9'.toNat = 57 := rfl
  have eA : 'A'.toNat = 65 := rfl
  have eF : 'F'.toNat = 70 := rfl
  have ea : 'a'.toNat = 97 := rfl
  have ef : 'f'.toNat = 102 := rfl
  rw [e0, e9, eA, eF, ea, ef] at h
  have hc : c = Char.ofNat c.toNat := (Char.ofNat_toNat c).symm
  generalize c.toNat = n at h hc
  subst hc
  have hn : 48 ≤ n ∧ n ≤ 102 := by omega
  obtain ⟨h1, h2⟩ := hn
  interval_cases n <;> first | (exfalso; omega) | decide

theorem caseVariant_table : ∀ c ∈ "0123456789ABCDEFabcdef".toList,
    ∀ c' ∈ "0123456789ABCDEFabcdef".toList,
      c.toLower = c'.toLower → fromHexChar c = fromHexChar c' := by decide

/-- Case variants have the same hex value and are hex digits together. -/
theorem caseVariant_spec {c c' : Char} (h : caseVariant c c' = true) :
    fromHexChar c = fromHexChar c' ∧ isXDigit c = isXDigit c' := by
  simp only [caseVariant, Bool.or_eq_true, Bool.and_eq_true, beq_iff_eq] at h
  rcases h with rfl | ⟨⟨h1, h2⟩, h3⟩
  · exact ⟨rfl, rfl⟩
  · exact ⟨caseVariant_table c (isXDigit_mem h1) c' (isXDigit_mem h2) h3, by rw [h1, h2]⟩

theorem DecodeString_congr : ∀ (x y : List Char),
    List.Forall₂ (fun c c' => fromHexChar c = fromHexChar c') x y →
    DecodeString x = DecodeString y
  | [], _, h => by cases h; rfl
  | [_], _, h => by
    cases h with
    | cons _ h2 => cases h2; rfl
  | a :: b :: x, _, h => by
    cases h with
    | cons h1 h =>
      cases h with
      | cons h2 h =>
        rw [DecodeString, DecodeString, h1, h2, DecodeString_congr x _ h]

theorem Forall₂_refl_hex (x : List Char) :
    List.Forall₂ (fun c c' => fromHexChar c = fromHexChar c') x x := by
  induction x with
  | nil => exact List.Forall₂.nil
  | cons c x ih => exact List.Forall₂.cons rfl ih

/-- Changing the letter case of hex digits in the digit run of a forward name does not change
what `toAAAA` does with a given reply: the same answer, with the same address, or none. -/
theorem toAAAA_case_insensitive (fl : Flags) (pfx : List Char) (reply : Msg) (d d' : List Char)
    (h : List.Forall₂ (fun c c' => caseVariant c c' = true) d d') :
    (serverOf fl pfx).toAAAA reply (fl.hostPrefixFlag ++ d ++ fl.domainFlag) =
      (serverOf fl pfx).toAAAA reply (fl.hostPrefixFlag ++ d' ++ fl.domainFlag) := by
  have hlen : d.length = d'.length := h.length_eq
  have hval : List.Forall₂ (fun c c' => fromHexChar c = fromHexChar c') d d' :=
    h.imp (fun c c' hc => (caseVariant_spec hc).1)
  have hdig : (∀ c ∈ d, isXDigit c = true) ↔ (∀ c ∈ d', isXDigit c = true) := by
    clear hlen hval
    induction h with
    | nil => simp
    | cons hc _ ih =>
      simp only [List.forall_mem_cons, ih, (caseVariant_spec hc).2]
  by_cases hok : (∀ c ∈ d, isXDigit c = true) ∧ 1 ≤ d.length ∧ d.length ≤ 32 - pfx.length
  · obtain ⟨hd, h1, h2⟩ := hok
    unfold server.toAAAA
    rw [find_forward_some fl pfx _ d hd h1 h2 rfl,
      find_forward_some fl pfx _ d' (hdig.mp hd) (by omega) (by omega) rfl]
    have hpfx : (serverOf fl pfx).pfx = pfx := rfl
    simp only [hpfx, hlen]
    have hdec : ∀ z : List Char, DecodeString (pfx ++ (z ++ d)) = DecodeString (pfx ++ (z ++ d')) :=
      fun z => DecodeString_congr _ _
        (List.rel_append (Forall₂_refl_hex pfx) (List.rel_append (Forall₂_refl_hex z) hval))
    split_ifs
    · rw [hdec]
    · have := hdec []
      simpa using congrArg (fun o => match o with
        | none => Run.done reply
        | some ip => Run.done { reply with
            Answer := [RR.AAAA { Rrtype := TypeAAAA, Rdlength := ip.length % 2 ^ 16 } ip] }) this
  · rw [toAAAA_of_not_forward fl pfx reply _ (by
        rintro ⟨ds, hds, h1, h2, hname⟩
        rw [forward_run_unique _ _ _ _ hname] at hds h1 h2
        exact hok ⟨hds, h1, h2⟩),
      toAAAA_of_not_forward fl pfx reply _ (by
        rintro ⟨ds, hds, h1, h2, hname⟩
        rw [forward_run_unique _ _ _ _ hname] at hds h1 h2
        exact hok ⟨hdig.mpr hds, by omega, by omega⟩)]


/-- C5 at the failing input: for the subnet `fe80::/64`, the reverse name of `fe80::1` is
answered by `toPTR` and by `toNS` when written with `e.f`, and gets no answer from either
when the same two labels are written `E.F`. -/
theorem upper_case_subnet_digits_rejected :
    reverseName "FE800000000000000000000000000001".toList =
      "1.0.0.0.0.0.0.0.0.0.0.0.0.0.0.0.0.0.0.0.0.0.0.0.0.0.0.0.0.8.E.F.ip6.arpa.".toList ∧
    ptrTargetOf ((serverOf exFlags exPfx).toPTR exFlags {} (reverseName exHost1)) =
      some "ip-1.v6.example.com.".toList ∧
    (serverOf exFlags exPfx).toPTR exFlags {}
      (reverseName "FE800000000000000000000000000001".toList) = Run.done {} ∧
    (serverOf exFlags exPfx).toNS exFlags {} (reverseName exHost1) =
      Run.done { Ns := [RR.NS { Rrtype := TypeNS, Rdlength := 15 } "ns.example.com.".toList] } ∧
    (serverOf exFlags exPfx).toNS exFlags {}
      (reverseName "FE800000000000000000000000000001".toList) = Run.done {} := by
  refine ⟨by decide, by decide, by decide, by decide, by decide⟩

/-! ## `main`: validation of the network and derivation of the prefix -/

theorem CIDRMask_zero (l : Nat) :
    simpleMaskLength (CIDRMask 0 l) = some 0 ∧ (CIDRMask 0 l).all (· = 0) = true := by
  induction l with
  | zero => exact ⟨rfl, rfl⟩
  | succ l ih =>
    have hc : CIDRMask 0 (l + 1) = 0 :: CIDRMask 0 l := rfl
    rw [hc]
    refine ⟨?_, by simp [ih.2]⟩
    simp [simpleMaskLength, leadingOnes, ih.2]

/-- The mask of `/n` has `n` leading one bits according to `simpleMaskLength`. -/
theorem simpleMaskLength_CIDRMask (l n : Nat) (hn : n ≤ 8 * l) :
    simpleMaskLength (CIDRMask n l) = some n := by
  induction l generalizing n with
  | zero =>
    have : n = 0 := by omega
    subst this; rfl
  | succ l ih =>
    by_cases h8 : 8 ≤ n
    · have hc : CIDRMask n (l + 1) = 0xff :: CIDRMask (n - 8) l := by simp [CIDRMask, h8]
      rw [hc]
      simp only [simpleMaskLength, if_true, ih (n - 8) (by omega), Option.map_some']
      congr 1; omega
    · have hc : CIDRMask n (l + 1) = (255 - 255 / 2 ^ n) :: CIDRMask 0 l := by
        simp [CIDRMask, h8]
      rw [hc]
      have hz := (CIDRMask_zero l).2
      have hlt : n < 8 := by omega
      interval_cases n <;> simp [simpleMaskLength, leadingOnes, hz]

theorem IPMaskSize_CIDRMask (l n : Nat) (hn : n ≤ 8 * l) :
    (IPMaskSize (CIDRMask n l)).1 = n := by
  simp [IPMaskSize, simpleMaskLength_CIDRMask l n hn]

theorem mainPfx_of_aligned (ip : List Nat) (n : Nat) (hn : n ≤ 8 * ip.length)
    (h8 : n % 8 = 0) :
    mainPfx ⟨ip, CIDRMask n ip.length⟩ = Startup.ok (hexEncode (ip.take (n / 8))) := by
  unfold mainPfx
  simp only [IPMaskSize_CIDRMask ip.length n hn]
  rw [if_neg (by omega), if_neg (by omega)]

theorem mainPfx_of_unaligned (ip : List Nat) (n : Nat) (hn : n ≤ 8 * ip.length)
    (h8 : n % 8 ≠ 0) :
    mainPfx ⟨ip, CIDRMask n ip.length⟩ =
      Startup.fatal "bad -network flag: mask must be a multiple of 8" := by
  unfold mainPfx
  simp only [IPMaskSize_CIDRMask ip.length n hn]
  rw [if_pos h8]

/-- A `/128` network passes the check of the mask, and `main` then panics while
compiling the `aaaa` pattern. -/
theorem main_of_full_mask (fl : Flags) (ip : List Nat) (hl : ip.length = 16) :
    main fl (some ⟨ip, CIDRMask 128 ip.length⟩) = Startup.panic := by
  unfold main
  simp only [mainPfx_of_aligned ip 128 (by omega) (by decide)]
  rw [newServer_of_ge fl _ (by rw [length_hexEncode, List.length_take]; omega)]

/-- C11. For the network that `net.ParseCIDR` returns for `/n` on an address of 4 or 16
bytes: `main` ends in `log.Fatalf` exactly when `n` is not a multiple of 8; otherwise the
prefix is the lowercase hex encoding of the first `n/8` address bytes, of length `n/4`,
which is even and at most 32, all of its characters are in `0-9a-f`, and for `n < 128`
`main` goes on to serve with the server built from that prefix. -/
theorem main_validation (fl : Flags) (ip : List Nat) (n : Nat)
    (hl : ip.length = 4 ∨ ip.length = 16) (hn : n ≤ 8 * ip.length)
    (hb : ∀ b ∈ ip, b < 256) :
    ((∃ msg, main fl (some ⟨ip, CIDRMask n ip.length⟩) = Startup.fatal msg) ↔ n % 8 ≠ 0) ∧
    (n % 8 = 0 →
      mainPfx ⟨ip, CIDRMask n ip.length⟩ = Startup.ok (hexEncode (ip.take (n / 8))) ∧
      (hexEncode (ip.take (n / 8))).length = n / 4 ∧
      (hexEncode (ip.take (n / 8))).length % 2 = 0 ∧
      (hexEncode (ip.take (n / 8))).length ≤ 32 ∧
      (∀ c ∈ hexEncode (ip.take (n / 8)), isLowerHex c = true) ∧
      (n < 128 → main fl (some ⟨ip, CIDRMask n ip.length⟩) =
        Startup.ok (serverOf fl (hexEncode (ip.take (n / 8)))))) := by
  have hlen : n % 8 = 0 → (hexEncode (ip.take (n / 8))).length = n / 4 := by
    intro h8
    rw [length_hexEncode, List.length_take]
    omega
  constructor
  · constructor
    · rintro ⟨msg, hmsg⟩ h8
      unfold main at hmsg
      simp only [mainPfx_of_aligned ip n hn h8] at hmsg
      cases hns : newServer fl (hexEncode (ip.take (n / 8))) <;> rw [hns] at hmsg <;> cases hmsg
    · intro h8
      refine ⟨"bad -network flag: mask must be a multiple of 8", ?_⟩
      unfold main
      simp only [mainPfx_of_unaligned ip n hn h8]
  · intro h8
    refine ⟨mainPfx_of_aligned ip n hn h8, hlen h8, ?_, ?_, ?_, ?_⟩
    · rw [hlen h8]; omega
    · rw [hlen h8]; omega
    · exact isLowerHex_hexEncode _ (fun b hb' => hb b (List.mem_of_mem_take hb'))
    · intro h128
      unfold main
      simp only [mainPfx_of_aligned ip n hn h8]
      rw [newServer_of_lt fl _ (by rw [hlen h8]; omega)]

theorem main_validation_witness :
    ((∃ msg, main exFlags (some ⟨[254, 128, 0, 0, 0, 0, 0, 0, 0, 0, 0, 0, 0, 0, 0, 0],
        CIDRMask 64 16⟩) = Startup.fatal msg) ↔ 64 % 8 ≠ 0) ∧
    main exFlags (some ⟨[254, 128, 0, 0, 0, 0, 0, 0, 0, 0, 0, 0, 0, 0, 0, 0], CIDRMask 64 16⟩) =
      Startup.ok (serverOf exFlags
        (hexEncode (([254, 128, 0, 0, 0, 0, 0, 0, 0, 0, 0, 0, 0, 0, 0, 0] : List Nat).take
          (64 / 8)))) :=
  ⟨(main_validation exFlags [254, 128, 0, 0, 0, 0, 0, 0, 0, 0, 0, 0, 0, 0, 0, 0] 64
      (Or.inr rfl) (by decide) (by decide)).1,
   ((main_validation exFlags [254, 128, 0, 0, 0, 0, 0, 0, 0, 0, 0, 0, 0, 0, 0, 0] 64
      (Or.inr rfl) (by decide) (by decide)).2 (by decide)).2.2.2.2.2 (by decide)⟩

/-! ## Reachability of the error branch of `toAAAA`, and host identifier zero -/

/-- What a successful match of the `aaaa` pattern tells about the name. -/
theorem find_forward_inv (fl : Flags) (pfx name : List Char) (m : List Char × List Char)
    (h : (serverOf fl pfx).aaaa.FindStringSubmatch name = some m) :
    ∃ ds : List Char, (∀ d ∈ ds, isXDigit d = true) ∧ 1 ≤ ds.length ∧
      ds.length ≤ 32 - pfx.length ∧ name = fl.hostPrefixFlag ++ ds ++ fl.domainFlag ∧
      m = (name, ds) := by
  by_cases hex : ∃ ds : List Char, (∀ d ∈ ds, isXDigit d = true) ∧ 1 ≤ ds.length ∧
      ds.length ≤ 32 - pfx.length ∧ name = fl.hostPrefixFlag ++ ds ++ fl.domainFlag
  · obtain ⟨ds, hds, h1, h2, hname⟩ := hex
    rw [find_forward_some fl pfx name ds hds h1 h2 hname] at h
    exact ⟨ds, hds, h1, h2, hname, (Option.some.inj h).symm⟩
  · rw [find_forward_none fl pfx name hex] at h
    cases h

/-- C12. For a subnet prefix that is an even number `p < 32` of hex digits: whenever the
`aaaa` pattern accepts a name, the string `prefix ++ padded digits` that `toAAAA` hands to
`hex.DecodeString` has exactly 32 characters, all hex digits, decoding succeeds and `toAAAA`
sets an AAAA answer; whenever the pattern rejects the name, `toAAAA` sets none. -/
theorem toAAAA_decode_never_fails (fl : Flags) (pfx : List Char)
    (hhex : ∀ c ∈ pfx, isXDigit c = true) (heven : pfx.length % 2 = 0)
    (hlen : pfx.length < 32) (reply : Msg) (name : List Char) :
    (∀ m, (serverOf fl pfx).aaaa.FindStringSubmatch name = some m →
      (pfx ++ (List.replicate (32 - pfx.length - m.2.length) '0' ++ m.2)).length = 32 ∧
      (∀ c ∈ pfx ++ (List.replicate (32 - pfx.length - m.2.length) '0' ++ m.2),
        isXDigit c = true) ∧
      ∃ ip, DecodeString (pfx ++ (List.replicate (32 - pfx.length - m.2.length) '0' ++ m.2))
          = some ip ∧
        (serverOf fl pfx).toAAAA reply name = Run.done { reply with Answer :=
          [RR.AAAA { Rrtype := TypeAAAA, Rdlength := ip.length % 2 ^ 16 } ip] }) ∧
    ((serverOf fl pfx).aaaa.FindStringSubmatch name = none →
      (serverOf fl pfx).toAAAA reply name = Run.done reply) := by
  constructor
  · intro m hm
    obtain ⟨ds, hds, h1, h2, hname, rfl⟩ := find_forward_inv fl pfx name m hm
    obtain ⟨ip, nb, hip, -, -, -, -, -⟩ := padded_decodes pfx ds hhex heven hds h2 (by omega)
    refine ⟨by simp; omega, ?_, ip, hip, toAAAA_of_forward fl pfx reply name ds ip hds h1 h2 hname hip⟩
    intro c hc
    rcases List.mem_append.mp hc with hc | hc
    · exact hhex c hc
    · rcases List.mem_append.mp hc with hc | hc
      · rw [(List.mem_replicate.mp hc).2]; decide
      · exact hds c hc
  · intro hnone
    unfold server.toAAAA
    rw [hnone]

theorem toAAAA_decode_never_fails_witness :
    ("fe80000000000000".toList ++ (List.replicate
        (32 - "fe80000000000000".toList.length - "1".toList.length) '0' ++ "1".toList)).length
      = 32 ∧
    (∀ c ∈ "fe80000000000000".toList ++ (List.replicate
        (32 - "fe80000000000000".toList.length - "1".toList.length) '0' ++ "1".toList),
      isXDigit c = true) ∧
    ∃ ip, DecodeString ("fe80000000000000".toList ++ (List.replicate
        (32 - "fe80000000000000".toList.length - "1".toList.length) '0' ++ "1".toList))
          = some ip ∧
      (serverOf exFlags "fe80000000000000".toList).toAAAA {} "ip-1.v6.example.com.".toList =
        Run.done { ({} : Msg) with Answer :=
          [RR.AAAA { Rrtype := TypeAAAA, Rdlength := ip.length % 2 ^ 16 } ip] } :=
  (toAAAA_decode_never_fails exFlags "fe80000000000000".toList (by decide) (by decide)
    (by decide) {} "ip-1.v6.example.com.".toList).1
    ("ip-1.v6.example.com.".toList, "1".toList) (by decide)

theorem TrimLeft0_zeros (k : Nat) : TrimLeft0 (List.replicate k '0') = [] := by
  have := TrimLeft0_unique k [] (by simp)
  rwa [List.append_nil] at this

/-- C13. For a subnet prefix of even length `p < 32` in lowercase hex and the address of
the subnet whose host identifier is all zeros: `toPTR` answers its reverse name with exactly
`hostPrefix ++ domainSuffix`, and `toAAAA` sets no answer for that host name. -/
theorem host_zero_breaks_round_trip (fl : Flags) (pfx : List Char)
    (hhex : ∀ c ∈ pfx, isLowerHex c = true) (heven : pfx.length % 2 = 0)
    (hlen : pfx.length < 32) (a : List Nat)
    (ha : hexEncode a = pfx ++ List.replicate (32 - pfx.length) '0') (reply reply' : Msg) :
    (∃ hdr : RR_Header, (serverOf fl pfx).toPTR fl reply (reverseNameOf a) =
      Run.done { reply with
        Answer := [RR.PTR hdr (fl.hostPrefixFlag ++ fl.domainFlag)] }) ∧
    (serverOf fl pfx).toAAAA reply' (fl.hostPrefixFlag ++ fl.domainFlag) = Run.done reply' := by
  constructor
  · have hx : ∀ c ∈ hexEncode a, isXDigit c = true := by
      intro c hc
      rw [ha] at hc
      rcases List.mem_append.mp hc with hc | hc
      · exact isXDigit_of_isLowerHex (hhex c hc)
      · rw [(List.mem_replicate.mp hc).2]; decide
    have hl : (hexEncode a).length = 32 := by rw [ha]; simp; omega
    have hptr := toPTR_of_reverse fl pfx reply (reverseNameOf a) (hexEncode a).reverse
      (by rw [List.length_reverse, hl]) (fun c hc => hx c (List.mem_reverse.mp hc)) rfl
      (by rw [List.reverse_reverse, ha]; exact List.prefix_append _ _)
    rw [List.reverse_reverse, ha, List.drop_left, TrimLeft0_zeros, List.append_nil] at hptr
    exact ⟨_, hptr⟩
  · apply toAAAA_of_not_forward
    rintro ⟨ds, -, h1, -, hname⟩
    have := congrArg List.length hname
    simp only [List.length_append] at this
    omega

theorem host_zero_breaks_round_trip_witness :
    (∃ hdr : RR_Header, (serverOf exFlags exPfx).toPTR exFlags {}
        (reverseNameOf [254, 128, 0, 0, 0, 0, 0, 0, 0, 0, 0, 0, 0, 0, 0, 0]) =
      Run.done { ({} : Msg) with
        Answer := [RR.PTR hdr (exFlags.hostPrefixFlag ++ exFlags.domainFlag)] }) ∧
    (serverOf exFlags exPfx).toAAAA {} (exFlags.hostPrefixFlag ++ exFlags.domainFlag) =
      Run.done {} :=
  host_zero_breaks_round_trip exFlags exPfx (by decide) (by decide) (by decide)
    [254, 128, 0, 0, 0, 0, 0, 0, 0, 0, 0, 0, 0, 0, 0, 0] (by decide) {} {}

/-! ## Requests without exactly one question, and the slices of `hexMatch` -/

/-- C14. A request whose question count is not 1 gets no reply: `ServeDNS` returns without
writing a message, whatever the server and the flags are, so no outcome of `toNS`, `toPTR`
or `toAAAA` (not even a panic) takes part in it. -/
theorem ServeDNS_question_count (fl : Flags) (s : server) (m : Msg)
    (h : m.Question.length ≠ 1) : s.ServeDNS fl m = Run.done none := by
  unfold server.ServeDNS
  match hq : m.Question with
  | [] => rfl
  | [q] => rw [hq] at h; exact absurd rfl h
  | _ :: _ :: _ => rfl

theorem ServeDNS_question_count_witness :
    (serverOf exFlags []).ServeDNS exFlags
      { Question := [⟨ip6arpa, TypeNS, ClassINET⟩, ⟨ip6arpa, TypeNS, ClassINET⟩] } =
        Run.done none ∧
    (serverOf exFlags exPfx).ServeDNS exFlags { Question := [] } = Run.done none :=
  ⟨ServeDNS_question_count exFlags (serverOf exFlags [])
      { Question := [⟨ip6arpa, TypeNS, ClassINET⟩, ⟨ip6arpa, TypeNS, ClassINET⟩] } (by decide),
   ServeDNS_question_count exFlags (serverOf exFlags exPfx) { Question := [] } (by decide)⟩

/-- With the `ptr` pattern `hexMatch` never panics. -/
theorem hexMatch_ptr_ne_panic (fl : Flags) (pfx name : List Char) :
    (serverOf fl pfx).hexMatch (serverOf fl pfx).ptr name ≠ Run.panic := by
  have hptr : (serverOf fl pfx).ptr =
      ⟨Re.cat (Re.group (Re.rep nibbleLabel 32 32)) (QuoteMeta ip6arpa)⟩ := rfl
  rw [hptr]
  by_cases hm : ∃ ds : List Char, (∀ d ∈ ds, isXDigit d = true) ∧ 32 ≤ ds.length ∧
      ds.length ≤ 32 ∧ name = dotted ds ++ ip6arpa
  · obtain ⟨ds, hds, h1, h2, hname⟩ := hm
    have hne : ds ≠ [] := by intro h; rw [h] at h1; simp at h1
    rw [hexMatch_reverse (serverOf fl pfx) 32 32 name ds hds h1 h2 hname hne]
    split_ifs <;> exact fun h => by cases h
  · rw [hexMatch_reverse_none (serverOf fl pfx) 32 32 name hm]
    exact fun h => by cases h

/-- With the `ns` pattern of a non-empty prefix `hexMatch` never panics. -/
theorem hexMatch_ns_ne_panic (fl : Flags) (pfx name : List Char) (hpos : 1 ≤ pfx.length) :
    (serverOf fl pfx).hexMatch (serverOf fl pfx).ns name ≠ Run.panic := by
  have hns : (serverOf fl pfx).ns =
      ⟨Re.cat (Re.group (Re.rep nibbleLabel pfx.length 32)) (QuoteMeta ip6arpa)⟩ := rfl
  rw [hns]
  by_cases hm : ∃ ds : List Char, (∀ d ∈ ds, isXDigit d = true) ∧ pfx.length ≤ ds.length ∧
      ds.length ≤ 32 ∧ name = dotted ds ++ ip6arpa
  · obtain ⟨ds, hds, h1, h2, hname⟩ := hm
    have hne : ds ≠ [] := by
      intro h
      rw [h, List.length_nil] at h1
      omega
    rw [hexMatch_reverse (serverOf fl pfx) pfx.length 32 name ds hds h1 h2 hname hne]
    split_ifs <;> exact fun h => by cases h
  · rw [hexMatch_reverse_none (serverOf fl pfx) pfx.length 32 name hm]
    exact fun h => by cases h

/-- With the `ns` pattern of the empty prefix `hexMatch` panics on `ip6.arpa.` and on no
other name. -/
theorem hexMatch_ns_panic_iff (fl : Flags) (name : List Char) :
    (serverOf fl []).hexMatch (serverOf fl []).ns name = Run.panic ↔ name = ip6arpa := by
  have hns : (serverOf fl []).ns =
      ⟨Re.cat (Re.group (Re.rep nibbleLabel 0 32)) (QuoteMeta ip6arpa)⟩ := rfl
  rw [hns]
  constructor
  · intro hp
    by_cases hm : ∃ ds : List Char, (∀ d ∈ ds, isXDigit d = true) ∧ 0 ≤ ds.length ∧
        ds.length ≤ 32 ∧ name = dotted ds ++ ip6arpa
    · obtain ⟨ds, hds, h1, h2, hname⟩ := hm
      by_cases hne : ds = []
      · rw [hname, hne]; rfl
      · rw [hexMatch_reverse (serverOf fl []) 0 32 name ds hds h1 h2 hname hne] at hp
        split_ifs at hp
    · rw [hexMatch_reverse_none (serverOf fl []) 0 32 name hm] at hp
      cases hp
  · rintro rfl
    exact hexMatch_reverse_empty (serverOf fl []) 32

/-- C15 at the failing input: with the empty prefix (`p = 0`, `-network ::/0`) and the `ns`
pattern, the name `ip6.arpa.` is matched with an empty `m[1]`, the slice
`m[1][:len(m[1])-1]` is out of range and `hexMatch` panics; with the `ptr` pattern the same
name gets a result. -/
theorem hexMatch_empty_capture_panics :
    (serverOf exFlags []).ns.FindStringSubmatch ip6arpa = some (ip6arpa, []) ∧
    (serverOf exFlags []).hexMatch (serverOf exFlags []).ns ip6arpa = Run.panic ∧
    (serverOf exFlags []).hexMatch (serverOf exFlags []).ptr ip6arpa = Run.done ([], false) := by
  refine ⟨by decide, by decide, by decide⟩

/-! ## The PTR names lie in the NS zone -/

/-- C17. For every configuration and every query name: if `toPTR`, started on a reply
without answers, sets an answer for the name, then `toNS` sets an authority record for the
same name. -/
theorem toPTR_answer_implies_toNS (fl : Flags) (pfx : List Char) (_hlen : pfx.length ≤ 32)
    (reply : Msg) (name : List Char) (hfresh : reply.Answer = []) (reply' : Msg)
    (hptr : (serverOf fl pfx).toPTR fl reply name = Run.done reply')
    (hans : reply'.Answer ≠ []) :
    (serverOf fl pfx).toNS fl reply name = Run.done { reply with Ns :=
      [RR.NS { Rrtype := TypeNS, Rdlength := byteLen fl.nsFlag % 2 ^ 16 } fl.nsFlag] } := by
  by_cases hA : ∃ ds : List Char, ds.length = 32 ∧ (∀ d ∈ ds, isXDigit d = true) ∧
      name = dotted ds ++ ip6arpa ∧ pfx <+: ds.reverse
  · obtain ⟨ds, h32, hds, hname, hpre⟩ := hA
    exact toNS_of_reverse fl pfx reply name ds
      (by intro h; rw [h] at h32; simp at h32) (by omega) hds hname hpre
  · rw [toPTR_of_not_reverse fl pfx reply name hA] at hptr
    injection hptr with hptr
    rw [← hptr] at hans
    exact absurd hfresh hans

theorem toPTR_answer_implies_toNS_witness :
    (serverOf exFlags exPfx).toNS exFlags {} (reverseName exHost1) =
      Run.done { ({} : Msg) with Ns :=
        [RR.NS { Rrtype := TypeNS, Rdlength := byteLen exFlags.nsFlag % 2 ^ 16 }
          exFlags.nsFlag] } :=
  toPTR_answer_implies_toNS exFlags exPfx (by decide) {} (reverseName exHost1) rfl
    { Answer := [RR.PTR { Rrtype := 12, Rdlength := 20 } "ip-1.v6.example.com.".toList] }
    (by decide) (by decide)

/-! ## From a forward name to the address and back -/

theorem hexDigit_table : ∀ c ∈ "0123456789ABCDEFabcdef".toList,
    (fromHexChar c).map hexDigit = some c.toLower ∧
    (c.toLower = c ↔ isLowerHex c = true) := by decide

/-- The hex digit printed for the value of a hex digit is its lowercase form. -/
theorem hexDigit_fromHexChar {c : Char} {n : Nat} (hc : isXDigit c = true)
    (hn : fromHexChar c = some n) : hexDigit n = c.toLower := by
  have := (hexDigit_table c (isXDigit_mem hc)).1
  rw [hn] at this
  exact Option.some.inj this

theorem toLower_eq_iff_isLowerHex {c : Char} (hc : isXDigit c = true) :
    c.toLower = c ↔ isLowerHex c = true :=
  (hexDigit_table c (isXDigit_mem hc)).2

/-- Encoding the bytes decoded from a string of hex digits gives the string in lowercase. -/
theorem hexEncode_of_DecodeString : ∀ (x : List Char) (bs : List Nat),
    (∀ c ∈ x, isXDigit c = true) → DecodeString x = some bs →
    hexEncode bs = x.map Char.toLower
  | [], bs, _, h => by
    rw [DecodeString] at h
    cases h; rfl
  | [_], bs, _, h => by
    rw [DecodeString] at h
    cases h
  | p :: q :: rest, bs, hx, h => by
    obtain ⟨a, ha, ha16⟩ := fromHexChar_of_isXDigit (hx p (by simp))
    obtain ⟨b, hb, hb16⟩ := fromHexChar_of_isXDigit (hx q (by simp))
    rw [DecodeString, ha, hb] at h
    cases hrest : DecodeString rest with
    | none => rw [hrest] at h; cases h
    | some bs' =>
      rw [hrest] at h
      simp only [Option.some.injEq] at h
      subst h
      have ih := hexEncode_of_DecodeString rest bs' (fun c hc => hx c (by simp [hc])) hrest
      have hcons : hexEncode ((a * 16 + b) :: bs') =
          hexDigit ((a * 16 + b) / 16) :: hexDigit ((a * 16 + b) % 16) :: hexEncode bs' := rfl
      have e1 : (a * 16 + b) / 16 = a := by omega
      have e2 : (a * 16 + b) % 16 = b := by omega
      rw [hcons, e1, e2, ih, hexDigit_fromHexChar (hx p (by simp)) ha,
        hexDigit_fromHexChar (hx q (by simp)) hb]
      rfl

theorem map_toLower_of_isLowerHex (x : List Char) (hx : ∀ c ∈ x, isLowerHex c = true) :
    x.map Char.toLower = x := by
  induction x with
  | nil => rfl
  | cons c x ih =>
    rw [List.map_cons, ih (fun d hd => hx d (List.mem_cons_of_mem _ hd)),
      (toLower_eq_iff_isLowerHex (isXDigit_of_isLowerHex (hx c (List.mem_cons_self _ _)))).mpr
        (hx c (List.mem_cons_self _ _))]

theorem map_toLower_eq_iff (x : List Char) (hx : ∀ c ∈ x, isXDigit c = true) :
    x.map Char.toLower = x ↔ ∀ c ∈ x, isLowerHex c = true := by
  induction x with
  | nil => simp
  | cons c x ih =>
    rw [List.map_cons, List.cons.injEq, ih (fun d hd => hx d (List.mem_cons_of_mem _ hd)),
      toLower_eq_iff_isLowerHex (hx c (List.mem_cons_self _ _)), List.forall_mem_cons]

theorem TrimLeft0_zeros_append (k : Nat) (y : List Char) :
    TrimLeft0 (List.replicate k '0' ++ y) = TrimLeft0 y := by
  obtain ⟨j, hj, hhead⟩ := TrimLeft0_spec y
  have := TrimLeft0_unique (k + j) (TrimLeft0 y) hhead
  rw [List.replicate_add, List.append_assoc, ← hj] at this
  exact this

/-- Trimming changes nothing exactly when the string does not start with a zero. -/
theorem TrimLeft0_eq_self_iff (y : List Char) : TrimLeft0 y = y ↔ y.head? ≠ some '0' := by
  constructor
  · intro h
    obtain ⟨-, -, hhead⟩ := TrimLeft0_spec y
    rwa [h] at hhead
  · intro h
    have := TrimLeft0_unique 0 y h
    simpa using this

theorem length_TrimLeft0_le (y : List Char) : (TrimLeft0 y).length ≤ y.length := by
  obtain ⟨k, hk, -⟩ := TrimLeft0_spec y
  have := congrArg List.length hk
  rw [List.length_append] at this
  omega

theorem TrimLeft0_eq_of_length (y : List Char) (h : (TrimLeft0 y).length = y.length) :
    TrimLeft0 y = y := by
  obtain ⟨k, hk, -⟩ := TrimLeft0_spec y
  have hl := congrArg List.length hk
  rw [List.length_append, List.length_replicate] at hl
  have : k = 0 := by omega
  rw [this] at hk
  simpa using hk.symm

/-- C16. For a subnet prefix of even length `p < 32` in lowercase hex and a name
`hostPrefix ++ d ++ domainSuffix` with `d` a run of 1 to `32 - p` hex digits: `toAAAA`
answers with an address, and `toPTR` answers the canonical reverse name of that address with
`hostPrefix ++ t ++ domainSuffix`, where `t` is `d` in lowercase without its leading zeros;
this is the original name exactly when `d` is lowercase and does not start with `0`. -/
theorem aaaa_ptr_normalises (fl : Flags) (pfx : List Char)
    (hhex : ∀ c ∈ pfx, isLowerHex c = true) (heven : pfx.length % 2 = 0)
    (hlen : pfx.length < 32) (d : List Char) (hd : ∀ c ∈ d, isXDigit c = true)
    (h1 : 1 ≤ d.length) (h2 : d.length ≤ 32 - pfx.length) (reply reply' : Msg) :
    ∃ (ip : List Nat) (k : Nat) (t : List Char) (hdr hdr' : RR_Header),
      (serverOf fl pfx).toAAAA reply (fl.hostPrefixFlag ++ d ++ fl.domainFlag) =
        Run.done { reply with Answer := [RR.AAAA hdr ip] } ∧
      d.map Char.toLower = List.replicate k '0' ++ t ∧ t.head? ≠ some '0' ∧
      (serverOf fl pfx).toPTR fl reply' (reverseNameOf ip) =
        Run.done { reply' with
          Answer := [RR.PTR hdr' (fl.hostPrefixFlag ++ t ++ fl.domainFlag)] } ∧
      (fl.hostPrefixFlag ++ t ++ fl.domainFlag = fl.hostPrefixFlag ++ d ++ fl.domainFlag ↔
        (∀ c ∈ d, isLowerHex c = true) ∧ d.head? ≠ some '0') := by
  have hpx : ∀ c ∈ pfx, isXDigit c = true := fun c hc => isXDigit_of_isLowerHex (hhex c hc)
  obtain ⟨ip, nb, hip, hiplen, hlt, -, -, -⟩ := padded_decodes pfx d hpx heven hd h2 (by omega)
  have hall : ∀ c ∈ pfx ++ (List.replicate (32 - pfx.length - d.length) '0' ++ d),
      isXDigit c = true := by
    intro c hc
    rcases List.mem_append.mp hc with hc | hc
    · exact hpx c hc
    · rcases List.mem_append.mp hc with hc | hc
      · rw [(List.mem_replicate.mp hc).2]; decide
      · exact hd c hc
  have henc : hexEncode ip =
      pfx ++ (List.replicate (32 - pfx.length - d.length) '0' ++ d.map Char.toLower) := by
    rw [hexEncode_of_DecodeString _ ip hall hip, List.map_append, List.map_append,
      map_toLower_of_isLowerHex pfx hhex, List.map_replicate]
    rfl
  have hx : ∀ c ∈ hexEncode ip, isXDigit c = true :=
    fun c hc => isXDigit_of_isLowerHex (isLowerHex_hexEncode ip hlt c hc)
  have hl : (hexEncode ip).length = 32 := by rw [length_hexEncode, hiplen]
  have hptr := toPTR_of_reverse fl pfx reply' (reverseNameOf ip) (hexEncode ip).reverse
    (by rw [List.length_reverse, hl]) (fun c hc => hx c (List.mem_reverse.mp hc)) rfl
    (by rw [List.reverse_reverse, henc]; exact List.prefix_append _ _)
  rw [List.reverse_reverse, henc, List.drop_left, TrimLeft0_zeros_append] at hptr
  obtain ⟨k, hk, hhead⟩ := TrimLeft0_spec (d.map Char.toLower)
  refine ⟨ip, k, TrimLeft0 (d.map Char.toLower), _, _,
    toAAAA_of_forward fl pfx reply _ d ip hd h1 h2 rfl hip, hk, hhead, hptr, ?_⟩
  constructor
  · intro heq
    have ht : TrimLeft0 (d.map Char.toLower) = d := forward_run_unique _ _ _ _ heq.symm
    have hlow : d.map Char.toLower = d := by
      have := TrimLeft0_eq_of_length (d.map Char.toLower) (by rw [ht, List.length_map])
      rw [← this]; exact ht
    refine ⟨(map_toLower_eq_iff d hd).mp hlow, ?_⟩
    rw [hlow] at ht
    exact (TrimLeft0_eq_self_iff d).mp ht
  · rintro ⟨hlow, hnz⟩
    rw [(map_toLower_eq_iff d hd).mpr hlow, (TrimLeft0_eq_self_iff d).mpr hnz]

theorem aaaa_ptr_normalises_witness :
    ∃ (ip : List Nat) (k : Nat) (t : List Char) (hdr hdr' : RR_Header),
      (serverOf exFlags exPfx).toAAAA {}
          (exFlags.hostPrefixFlag ++ "00AB".toList ++ exFlags.domainFlag) =
        Run.done { ({} : Msg) with Answer := [RR.AAAA hdr ip] } ∧
      "00AB".toList.map Char.toLower = List.replicate k '0' ++ t ∧ t.head? ≠ some '0' ∧
      (serverOf exFlags exPfx).toPTR exFlags {} (reverseNameOf ip) =
        Run.done { ({} : Msg) with
          Answer := [RR.PTR hdr' (exFlags.hostPrefixFlag ++ t ++ exFlags.domainFlag)] } ∧
      (exFlags.hostPrefixFlag ++ t ++ exFlags.domainFlag =
          exFlags.hostPrefixFlag ++ "00AB".toList ++ exFlags.domainFlag ↔
        (∀ c ∈ "00AB".toList, isLowerHex c = true) ∧ "00AB".toList.head? ≠ some '0') :=
  aaaa_ptr_normalises exFlags exPfx (by decide) (by decide) (by decide) "00AB".toList
    (by decide) (by decide) (by decide) {} {}

end Rdns
